import Mathlib

set_option autoImplicit false
set_option maxHeartbeats 1000000

/-
Shallow embedding of the Urdu children's story generation backend:
the BPE tokenizer (backend/bpe_tokenizer.py), the trigram language model
(backend/trigram_language_model.py) and the streaming generation controller
(backend/main.py, generate_tokens).

Modelling conventions:
- Python `str` is `List Char` (`Str` below); `str.replace`, `str.split()`,
  `sep.join`, `str.strip()` are replayed character by character with Python's
  left-to-right, non-overlapping semantics.
- Python `dict` / `collections.Counter` are insertion-ordered association
  lists; `Counter[k] += n` is `bump`, dict-comprehension insertion (later
  value overwrites, position of the first occurrence kept) is `dinsert`,
  membership/access is `alookup` / `lookupD`.
- `Counter.most_common` is a stable sort by descending count (`sortDesc`),
  and Python's `max(..., key=...)` keeps the first maximum in insertion
  order (`argmaxFirst`).
- Python floats (the interpolation weights and probabilities) are modelled
  as exact rationals.
- `np.random.choice(tokens, p=probs)` returns some element of `tokens`;
  the draw is abstracted by an external `choice : Nat` selecting an index,
  which over-approximates every possible outcome of the sampler.
- File I/O (`train(corpus_path)`, `save`, `load`) happens at the boundary;
  `train` is modelled on the corpus file's contents.
-/

abbrev Str := List Char

/-- Whitespace test used by Python's `str.split()` / `str.strip()`
(ASCII whitespace). -/
def isWS (c : Char) : Bool :=
  c == ' ' || c == '\n' || c == '\t' || c == '\r' || c == '\x0B' || c == '\x0C'

/-- Worker for `pySplit`: `acc` holds the current word reversed. -/
def pySplitAux : Str → Str → List Str
  | [], acc => if acc = [] then [] else [acc.reverse]
  | c :: cs, acc =>
    if isWS c then
      if acc = [] then pySplitAux cs [] else acc.reverse :: pySplitAux cs []
    else pySplitAux cs (c :: acc)

/-- Python `str.split()` with no argument: split on whitespace runs,
drop empty pieces. -/
def pySplit (s : Str) : List Str := pySplitAux s []

/-- Python `sep.join(pieces)`. -/
def pyJoin (sep : Str) : List Str → Str
  | [] => []
  | [x] => x
  | x :: y :: xs => x ++ sep ++ pyJoin sep (y :: xs)

/-- Python `str.strip()`. -/
def pyStrip (s : Str) : Str :=
  ((s.dropWhile (fun c => isWS c)).reverse.dropWhile (fun c => isWS c)).reverse

/-- Worker for `pyReplace`, structurally recursive on a fuel argument so
that concrete instances evaluate inside the kernel.  With
`fuel ≥ s.length` the fuel guard is never reached (each step consumes at
least one character of `s`). -/
def pyReplaceGo (pat repl : Str) : Nat → Str → Str
  | _, [] => []
  | 0, c :: cs => c :: cs
  | fuel + 1, c :: cs =>
    if pat ≠ [] ∧ pat.isPrefixOf (c :: cs) then
      repl ++ pyReplaceGo pat repl fuel ((c :: cs).drop pat.length)
    else c :: pyReplaceGo pat repl fuel cs

/-- Python `s.replace(pat, repl)`: left-to-right, non-overlapping.
(The exotic empty-pattern behaviour of Python is never exercised by the
backend; for `pat = []` this returns `s` unchanged.) -/
def pyReplace (pat repl s : Str) : Str := pyReplaceGo pat repl s.length s

/-- First-match association-list lookup (Python `dict.get` / `in`). -/
def alookup {α β : Type} [DecidableEq α] (l : List (α × β)) (k : α) : Option β :=
  match l with
  | [] => none
  | e :: es => if e.1 = k then some e.2 else alookup es k

/-- Lookup with a default (`dict.get(k, d)`, `Counter[k]`, `defaultdict`). -/
def lookupD {α β : Type} [DecidableEq α] (l : List (α × β)) (k : α) (d : β) : β :=
  (alookup l k).getD d

/-- `Counter[k] += n`, preserving insertion order of keys. -/
def bump {α : Type} [DecidableEq α] (k : α) (n : Nat) : List (α × Nat) → List (α × Nat)
  | [] => [(k, n)]
  | e :: es => if e.1 = k then (e.1, e.2 + n) :: es else e :: bump k n es

/-- `d[k] = v`: overwrite in place if present, append otherwise. -/
def dinsert {α β : Type} [DecidableEq α] (k : α) (v : β) : List (α × β) → List (α × β)
  | [] => [(k, v)]
  | e :: es => if e.1 = k then (k, v) :: es else e :: dinsert k v es

/-- Sum of the values of a count table. -/
def sumVals {α : Type} (l : List (α × Nat)) : Nat := (l.map (fun e => e.2)).sum

/-- Python `set.update` on a set represented as a deduplicated
insertion-ordered list. -/
def setUpdate {α : Type} [DecidableEq α] (s : List α) (xs : List α) : List α :=
  xs.foldl (fun acc x => if x ∈ acc then acc else acc ++ [x]) s

/-- Stable descending insertion (ties keep the earlier element first). -/
def insertDesc {α : Type} (x : α × Nat) : List (α × Nat) → List (α × Nat)
  | [] => [x]
  | y :: ys => if y.2 ≥ x.2 then y :: insertDesc x ys else x :: y :: ys

/-- `Counter.most_common`: stable sort by descending count. -/
def sortDesc {α : Type} (l : List (α × Nat)) : List (α × Nat) :=
  l.foldl (fun acc x => insertDesc x acc) []

/-- Worker for `argmaxFirst`: keep the current best, replace only on a
strictly greater count. -/
def argmaxGo {α : Type} (k : α) (v : Nat) : List (α × Nat) → α
  | [] => k
  | e :: es => if e.2 > v then argmaxGo e.1 e.2 es else argmaxGo k v es

/-- Python `max(counter, key=counter.get)`: the first maximum in insertion
order. -/
def argmaxFirst {α : Type} : List (α × Nat) → Option α
  | [] => none
  | e :: es => some (argmaxGo e.1 e.2 es)

/-- `{v: k for k, v in vocab.items()}.get(i)`: later entries overwrite, so
this is the last entry whose value is `i`. -/
def idLookup (vocab : List (Str × Nat)) (i : Nat) : Option Str :=
  (vocab.reverse.find? (fun e => e.2 == i)).map (fun e => e.1)

/-! ### BPE tokenizer (backend/bpe_tokenizer.py) -/

def EOS_CHAR : Char := Char.ofNat 0xE000
def EOP_CHAR : Char := Char.ofNat 0xE001
def EOT_CHAR : Char := Char.ofNat 0xE002

/-- The synthetic end-of-word marker appended to every word. -/
def eowMarker : Str := "</w>".toList

/-- `self.special_tokens` from `BPETokenizer.__init__`. -/
def specialTokens : List (Str × Nat) :=
  [("<PAD>".toList, 0), ("<UNK>".toList, 1),
   ([EOS_CHAR], 2), ([EOP_CHAR], 3), ([EOT_CHAR], 4)]

/-- `self.legacy_special_aliases` from `BPETokenizer.__init__`. -/
def legacyAliases : List (Str × Str) :=
  [("<EOS>".toList, [EOS_CHAR]), ("<EOP>".toList, [EOP_CHAR]),
   ("<EOT>".toList, [EOT_CHAR])]

structure BPETokenizer where
  vocab_size : Nat
  vocab : List (Str × Nat)
  merges : List (Str × Str)
deriving DecidableEq

/-- `" ".join(list(w)) + " </w>"`. -/
def toVocabWord (w : Str) : Str :=
  pyJoin [' '] (w.map (fun c => [c])) ++ (' ' :: eowMarker)

/-- `BPETokenizer._get_pair_stats`. -/
def getPairStats (words : List (Str × Nat)) : List ((Str × Str) × Nat) :=
  words.foldl (fun acc e =>
    let syms := pySplit e.1
    (syms.zip syms.tail).foldl (fun a p => bump p e.2 a) acc) []

/-- `BPETokenizer._merge_vocab`: `{w.replace(" ".join(pair), "".join(pair)):
freq for w, freq in words.items()}`. -/
def mergeVocab (pair : Str × Str) (words : List (Str × Nat)) : List (Str × Nat) :=
  words.foldl (fun acc e =>
    dinsert (pyReplace (pair.1 ++ [' '] ++ pair.2) (pair.1 ++ pair.2) e.1) e.2 acc) []

/-- The merge loop of `BPETokenizer.train` (lines 70-76): repeat `num_merges`
times, stop early when no pairs remain. -/
def mergeLoop : Nat → List (Str × Nat) → List (Str × Str) →
    List (Str × Nat) × List (Str × Str)
  | 0, words, acc => (words, acc)
  | n + 1, words, acc =>
    match argmaxFirst (getPairStats words) with
    | none => (words, acc)
    | some best => mergeLoop n (mergeVocab best words) (acc ++ [best])

/-- The final vocabulary-assignment loop of `BPETokenizer.train`
(lines 88-94), with state `(vocab, next_id, slots)`.  Python's `slots` is an
`int` that can start negative when `vocab_size < 5`; since it is only ever
decremented under `slots > 0`, the truncated `Nat` subtraction used by the
caller gives the same behaviour. -/
def assignTokens (V : Nat) : List Str → List (Str × Nat) → Nat → Nat → List (Str × Nat)
  | [], vocab, _, _ => vocab
  | tok :: rest, vocab, next_id, slots =>
    if alookup vocab tok = none ∧ slots > 0 then
      let vocab2 := vocab ++ [(tok, next_id)]
      if vocab2.length ≥ V then vocab2
      else assignTokens V rest vocab2 (next_id + 1) (slots - 1)
    else
      if vocab.length ≥ V then vocab
      else assignTokens V rest vocab next_id slots

/-- Lines 40-76 of `BPETokenizer.train`: word-frequency table, base-symbol
set, optional prune, and the merge loop; returns the merged word table and
the Merge Table.  All the `available`-arithmetic is on Python ints; with
truncated `Nat` subtraction every comparison (`len(symbols) >= available`,
`max(1, available - 50)`, `num_merges <= 0`) takes the same branch as with
`int`s. -/
def trainMergePhase (corpus : Str) (vocab_size : Nat) :
    List (Str × Nat) × List (Str × Str) :=
  let word_freqs := (pySplit corpus).foldl (fun acc w => bump w 1 acc) []
  let vocab_words := word_freqs.foldl (fun acc e => dinsert (toVocabWord e.1) e.2 acc) []
  let symbols := vocab_words.foldl (fun acc e => setUpdate acc (pySplit e.1)) []
  let available := vocab_size - specialTokens.length
  let pruned :=
    if symbols.length ≥ available then
      let sym_freq := vocab_words.foldl
        (fun acc e => (pySplit e.1).foldl (fun a s => bump s e.2 a) acc) []
      let base_vocab_size := min symbols.length (max 1 (available - 50))
      let kept := ((sortDesc sym_freq).take base_vocab_size).map (fun e => e.1)
      (vocab_words.filter (fun e => (pySplit e.1).all (fun s => decide (s ∈ kept))), kept)
    else (vocab_words, symbols)
  let num_merges := if available - pruned.2.length = 0 then 1 else available - pruned.2.length
  mergeLoop num_merges pruned.1 []

/-- Lines 79-88 of `BPETokenizer.train`: the post-merge token frequencies,
ordered as `token_freq.most_common()`. -/
def trainTokenOrder (words : List (Str × Nat)) : List Str :=
  let token_freq := words.foldl
    (fun acc e => (pySplit e.1).foldl (fun a t => bump t e.2 a) acc) []
  (sortDesc token_freq).map (fun e => e.1)

/-- `BPETokenizer.train`, on the contents of the corpus file. -/
def BPETokenizer.train (corpus : Str) (vocab_size : Nat) : BPETokenizer :=
  let result := trainMergePhase corpus vocab_size
  ⟨vocab_size,
   assignTokens vocab_size (trainTokenOrder result.1) specialTokens
     specialTokens.length (vocab_size - specialTokens.length),
   result.2⟩

/-- `BPETokenizer._separate_specials`. -/
def separateSpecials (text : Str) : Str :=
  let t := legacyAliases.foldl (fun t e => pyReplace e.1 e.2 t) text
  [EOS_CHAR, EOP_CHAR, EOT_CHAR].foldl (fun t ch => pyReplace [ch] [' ', ch, ' '] t) t

/-- `BPETokenizer.encode_word`. -/
def BPETokenizer.encode_word (T : BPETokenizer) (word : Str) : List Str :=
  pySplit (T.merges.foldl
    (fun w p => pyReplace (p.1 ++ [' '] ++ p.2) (p.1 ++ p.2) w)
    (toVocabWord word))

/-- The ids appended by one iteration of the `encode` loop (lines 112-120):
alias normalisation, the special-token branch, and otherwise `encode_word`
mapped through the vocabulary with UNK (`self.special_tokens["<UNK>"] = 1`)
substituted for unknown symbols. -/
def encodeUnit (T : BPETokenizer) (w0 : Str) : List Nat :=
  let w := (alookup legacyAliases w0).getD w0
  match alookup specialTokens w with
  | some i => [i]
  | none => (T.encode_word w).map (fun tok => (alookup T.vocab tok).getD 1)

/-- `BPETokenizer.encode`. -/
def BPETokenizer.encode (T : BPETokenizer) (text : Str) : List Nat :=
  (pySplit (separateSpecials text)).foldl (fun ids w0 => ids ++ encodeUnit T w0) []

/-- The Urdu full stop U+06D4 used by `decode` to render the sentence-end
character. -/
def urduStop : Char := Char.ofNat 0x06D4

/-- `BPETokenizer.decode` up to (and excluding) the final
`" ".join(text.split())` whitespace collapse (lines 124-130), written
innermost-first: token strings joined, then the end-of-word marker becomes
a space, the end-of-sentence character its glyph plus a space, the
end-of-paragraph character a double line break, and the end-of-text
character is dropped. -/
def decodeText (T : BPETokenizer) (token_ids : List Nat) : Str :=
  pyReplace [EOT_CHAR] []
    (pyReplace [EOP_CHAR] ['\n', '\n']
      (pyReplace [EOS_CHAR] [urduStop, ' ']
        (pyReplace eowMarker [' ']
          ((token_ids.map (fun i => (idLookup T.vocab i).getD [])).flatten))))

/-- `BPETokenizer.decode`. -/
def BPETokenizer.decode (T : BPETokenizer) (token_ids : List Nat) : Str :=
  pyJoin [' '] (pySplit (decodeText T token_ids))

/-! ### Trigram language model (backend/trigram_language_model.py) -/

def pad_id : Nat := 0
def unk_id : Nat := 1
def eos_id : Nat := 2
def eop_id : Nat := 3
def eot_id : Nat := 4

structure TrigramLanguageModel where
  vocab_size : Nat
  unigram_counts : List (Nat × Nat)
  bigram_counts : List (Nat × List (Nat × Nat))
  trigram_counts : List ((Nat × Nat) × List (Nat × Nat))
  total_unigrams : Nat
  total_bigrams : List (Nat × Nat)
  total_trigrams : List ((Nat × Nat) × Nat)
  lambda1 : ℚ
  lambda2 : ℚ
  lambda3 : ℚ

/-- `TrigramLanguageModel._p1` (unigram). -/
def TrigramLanguageModel.p1 (m : TrigramLanguageModel) (w : Nat) : ℚ :=
  if m.total_unigrams = 0 then 0
  else ((lookupD m.unigram_counts w 0 : Nat) : ℚ) / (m.total_unigrams : ℚ)

/-- `TrigramLanguageModel._p2` (bigram). -/
def TrigramLanguageModel.p2 (m : TrigramLanguageModel) (w1 w2 : Nat) : ℚ :=
  let denom := lookupD m.total_bigrams w1 0
  if denom = 0 then 0
  else ((lookupD (lookupD m.bigram_counts w1 []) w2 0 : Nat) : ℚ) / (denom : ℚ)

/-- `TrigramLanguageModel._p3` (trigram). -/
def TrigramLanguageModel.p3 (m : TrigramLanguageModel) (w1 w2 w3 : Nat) : ℚ :=
  let denom := lookupD m.total_trigrams (w1, w2) 0
  if denom = 0 then 0
  else ((lookupD (lookupD m.trigram_counts (w1, w2) []) w3 0 : Nat) : ℚ) / (denom : ℚ)

/-- `TrigramLanguageModel.get_interpolated_prob`. -/
def TrigramLanguageModel.get_interpolated_prob
    (m : TrigramLanguageModel) (w1 w2 w3 : Nat) : ℚ :=
  m.lambda1 * m.p1 w3 + m.lambda2 * m.p2 w2 w3 + m.lambda3 * m.p3 w1 w2 w3

/-- Transcribed from the spec's words, for the refinement comparison of claim
C4: "λ1·P(w3) + λ2·P(w3 | w2) + λ3·P(w3 | w1,w2), where each conditional is
the relevant count divided by its context total, or 0 if the context total
is 0". -/
def spec_probability (m : TrigramLanguageModel) (w1 w2 w3 : Nat) : ℚ :=
  let pUni : ℚ := if m.total_unigrams = 0 then 0
    else ((lookupD m.unigram_counts w3 0 : Nat) : ℚ) / (m.total_unigrams : ℚ)
  let pBi : ℚ := if lookupD m.total_bigrams w2 0 = 0 then 0
    else ((lookupD (lookupD m.bigram_counts w2 []) w3 0 : Nat) : ℚ) /
      ((lookupD m.total_bigrams w2 0 : Nat) : ℚ)
  let pTri : ℚ := if lookupD m.total_trigrams (w1, w2) 0 = 0 then 0
    else ((lookupD (lookupD m.trigram_counts (w1, w2) []) w3 0 : Nat) : ℚ) /
      ((lookupD m.total_trigrams (w1, w2) 0 : Nat) : ℚ)
  m.lambda1 * pUni + m.lambda2 * pBi + m.lambda3 * pTri

/-- The raw candidate set built by `generate_next_token` (lines 77-84): keys
observed after the trigram context, keys observed after `w2` as a bigram
context, and the 50 globally most frequent unigram ids. -/
def rawCandidates (m : TrigramLanguageModel) (context : Nat × Nat) : List Nat :=
  let cands : List Nat := []
  let cands := match alookup m.trigram_counts context with
    | some ctr => setUpdate cands (ctr.map (fun e => e.1))
    | none => cands
  let cands := match alookup m.bigram_counts context.2 with
    | some ctr => setUpdate cands (ctr.map (fun e => e.1))
    | none => cands
  setUpdate cands (((sortDesc m.unigram_counts).take 50).map (fun e => e.1))

/-- The candidate set after `candidates.discard(self.pad_id)` and
`candidates.discard(self.unk_id)` (lines 86-87). -/
def candidateSet (m : TrigramLanguageModel) (context : Nat × Nat) : List Nat :=
  ((rawCandidates m context).filter (fun t => t ≠ pad_id)).filter (fun t => t ≠ unk_id)

/-- `TrigramLanguageModel.generate_next_token`.  The probabilities are
computed exactly as in the source; the final draw
`np.random.choice(tokens, p=probs)` is abstracted by the external `choice`,
which can select any element of `tokens` (a superset of the support of the
actual distribution). -/
def TrigramLanguageModel.generate_next_token
    (m : TrigramLanguageModel) (context : Nat × Nat) (choice : Nat) : Nat :=
  let tokens := candidateSet m context
  if tokens = [] then eos_id
  else
    let probs := tokens.map (fun t => m.get_interpolated_prob context.1 context.2 t)
    let s := probs.sum
    let _probs := if s = 0 then tokens.map (fun _ => (1 : ℚ) / (tokens.length : ℚ))
      else probs.map (fun p => p / s)
    tokens.getD (choice % tokens.length) eos_id

/-! ### Streaming generation controller (backend/main.py, generate_tokens) -/

inductive SSEEvent where
  | token : Str → SSEEvent
  | error : Str → SSEEvent
  | done : SSEEvent
deriving DecidableEq

structure GenState where
  ctx : List Nat
  generated_ids : List Nat
  consecutive_special : Nat
deriving DecidableEq

/-- `(ctx[-2], ctx[-1])`; the controller keeps `ctx` at length ≥ 2. -/
def last2 (l : List Nat) : Nat × Nat :=
  (l.getD (l.length - 2) 0, l.getD (l.length - 1) 0)

/-- The glyph emitted for a special id: `" ۔"` for end-of-sentence,
`"\n\n"` for end-of-paragraph. -/
def specialGlyph (i : Nat) : Str :=
  if i = eos_id then [' ', urduStop] else ['\n', '\n']

/-- One iteration of the generation loop of `generate_tokens`
(main.py lines 184-236), given the already-sampled `next_id`.
Returns (new state, emitted events, stopped?). -/
def genStepId (T : BPETokenizer) (s : GenState) (next_id : Nat) :
    GenState × List SSEEvent × Bool :=
  if next_id = eot_id then (s, [], true)
  else if next_id = pad_id ∨ next_id = unk_id then (s, [], false)
  else
    let s1 : GenState := ⟨s.ctx ++ [next_id], s.generated_ids ++ [next_id],
      s.consecutive_special⟩
    let token_text := T.decode [next_id]
    if next_id = eos_id then
      if s.consecutive_special + 1 ≥ 3 then
        ({ s1 with consecutive_special := s.consecutive_special + 1 }, [], true)
      else
        ({ s1 with consecutive_special := s.consecutive_special + 1 },
          [SSEEvent.token (specialGlyph next_id)], false)
    else if next_id = eop_id then
      if s.consecutive_special + 1 ≥ 3 then
        ({ s1 with consecutive_special := s.consecutive_special + 1 }, [], true)
      else
        ({ s1 with consecutive_special := s.consecutive_special + 1 },
          [SSEEvent.token (specialGlyph next_id)], false)
    else
      ({ s1 with consecutive_special := 0 },
        if pyStrip token_text ≠ [] then [SSEEvent.token (' ' :: pyStrip token_text)]
        else [],
        false)

/-- One iteration of the generation loop including the sampling call
(main.py line 175). -/
def genStep (T : BPETokenizer) (m : TrigramLanguageModel) (s : GenState) (r : Nat) :
    GenState × List SSEEvent × Bool :=
  genStepId T s (m.generate_next_token (last2 s.ctx) r)

/-- The `for step in range(max_length)` loop of `generate_tokens`, one draw
per step; both normal exhaustion and `break` are followed by the terminal
`done` event (main.py line 238). -/
def genLoop (T : BPETokenizer) (m : TrigramLanguageModel) :
    List Nat → GenState → List SSEEvent
  | [], _ => [SSEEvent.done]
  | r :: rest, s =>
    if (genStep T m s r).2.2 then (genStep T m s r).2.1 ++ [SSEEvent.done]
    else (genStep T m s r).2.1 ++ genLoop T m rest (genStep T m s r).1

def modelNotLoadedMsg : Str := "Model not loaded. Check backend logs.".toList

/-- Seeding of the 2-id context from the encoded prefix
(main.py lines 163-168). -/
def initialCtx (prefix_ids : List Nat) : List Nat :=
  if prefix_ids.length = 0 then [eos_id, eos_id]
  else if prefix_ids.length = 1 then [eos_id, prefix_ids.headD 0]
  else prefix_ids.drop (prefix_ids.length - 2)

/-- `generate_tokens(prefix, max_length)` (main.py lines 131-238), as the
list of server-sent events produced for one request.  `rand` supplies the
per-step random draw. -/
def generate_tokens (T : BPETokenizer) (m : TrigramLanguageModel)
    (pre : Str) (max_length : Nat) (rand : Nat → Nat) : List SSEEvent :=
  if m.total_unigrams = 0 then [SSEEvent.error modelNotLoadedMsg]
  else
    SSEEvent.token pre :: genLoop T m ((List.range max_length).map rand)
      ⟨initialCtx (T.encode pre), T.encode pre, 0⟩

/-! ### Concrete fixtures used by the witnesses and counterexamples -/

/-- A tokenizer with an empty vocabulary and no merges. -/
def tok0 : BPETokenizer := ⟨250, [], []⟩

/-- A model whose tables are empty (total unigram count 0). -/
def mZero : TrigramLanguageModel := ⟨250, [], [], [], 0, [], [], 1/10, 3/10, 6/10⟩

/-- A model whose only observed id is the end-of-sentence id. -/
def mEos : TrigramLanguageModel := ⟨250, [(eos_id, 5)], [], [], 5, [], [], 1/10, 3/10, 6/10⟩

/-- A model with a single ordinary observed id. -/
def mOrd : TrigramLanguageModel := ⟨250, [(7, 1)], [], [], 1, [], [], 1/10, 3/10, 6/10⟩

/-- The controller state right after seeding from an empty prefix. -/
def sInit : GenState := ⟨[eos_id, eos_id], [], 0⟩

/-- Training corpus exhibiting the round-trip counterexample of claim C2. -/
def corpusC2 : Str := "xa xa xa xa xa xa ab ab ab ab ab aq aq bq bq x x".toList

/-- A vocabulary whose single token contains the private-use end-of-text
character between the characters of the end-of-word marker. -/
def tokC10 : BPETokenizer := ⟨250, [(['<', '/', EOT_CHAR, 'w', '>'], 5)], []⟩

/-- A tokenizer for which the single word "ab" is fully covered: one merge
(a,b) and a vocabulary holding both tokens produced by `encode_word`. -/
def tokC2w : BPETokenizer :=
  ⟨250, specialTokens ++ [("ab".toList, 5), (eowMarker, 6)],
   [("a".toList, "b".toList)]⟩

/-- A tokenizer whose vocabulary tokens are free of the private-use
end-of-text character. -/
def tokC10w : BPETokenizer := ⟨250, [("ab".toList, 5), (eowMarker, 6)], []⟩

/-! ### Generic lemmas about the embedded Python primitives -/

theorem alookup_mem_values {α β : Type} [DecidableEq α] {l : List (α × β)} {k : α} {v : β}
    (h : alookup l k = some v) : v ∈ l.map (fun e => e.2) := by
  induction l with
  | nil => simp [alookup] at h
  | cons e es ih =>
    rw [alookup] at h
    by_cases he : e.1 = k
    · rw [if_pos he] at h
      simp [Option.some_injective _ h.symm]
    · rw [if_neg he] at h
      simp [ih h]

theorem alookup_append_some {α β : Type} [DecidableEq α] {l : List (α × β)} {k : α} {v : β}
    (l2 : List (α × β)) (h : alookup l k = some v) : alookup (l ++ l2) k = some v := by
  induction l with
  | nil => simp [alookup] at h
  | cons e es ih =>
    rw [alookup] at h
    by_cases he : e.1 = k
    · rw [if_pos he] at h
      simp [alookup, he, h]
    · rw [if_neg he] at h
      simpa [alookup, he] using ih h

theorem lookupD_le_sumVals {α : Type} [DecidableEq α] (l : List (α × Nat)) (k : α) :
    lookupD l k 0 ≤ sumVals l := by
  induction l with
  | nil => simp [lookupD, alookup, sumVals]
  | cons e es ih =>
    rw [lookupD, alookup]
    by_cases he : e.1 = k
    · rw [if_pos he]
      simp [sumVals]
    · rw [if_neg he]
      calc (alookup es k).getD 0 ≤ sumVals es := ih
        _ ≤ sumVals (e :: es) := by simp [sumVals]

theorem find?_isSome_of_value_mem {l : List (Str × Nat)} {i : Nat}
    (h : i ∈ l.map (fun e => e.2)) : (idLookup l i).isSome := by
  rcases List.mem_map.mp h with ⟨e, he, hv⟩
  have hsome : (List.find? (fun e => e.2 == i) l.reverse).isSome :=
    List.find?_isSome.mpr ⟨e, by simpa using he, by simp [hv]⟩
  rcases Option.isSome_iff_exists.mp hsome with ⟨x, hx⟩
  simp [idLookup, hx]

/-! ### Claim C1: first merge on the corpus "ab ab ab cd" with V = 10 -/

/-- C1 counterexample: with `V = 10` the base-symbol prune fires
(5 base symbols ≥ 10 - 5 available slots), keeps only the most frequent
symbol — the end-of-word marker — drops every word, and training therefore
produces an *empty* Merge Table: its first entry is neither (a,b) nor (c,d). -/
theorem C1_counterexample :
    (BPETokenizer.train ("ab ab ab cd".toList) 10).merges = [] ∧
    (BPETokenizer.train ("ab ab ab cd".toList) 10).merges.head? ≠
      some ("a".toList, "b".toList) ∧
    (BPETokenizer.train ("ab ab ab cd".toList) 10).merges.head? ≠
      some ("c".toList, "d".toList) := by
  refine ⟨by decide, by decide, by decide⟩

/-- C1 amended: on the corpus "ab ab ab cd" with `V = 10` the Merge Table is
empty because of the base-symbol prune; with the prune not triggered
(`V = 11`) the first Merge Table entry is the pair (a,b), as the word `ab`
has frequency 3 against `cd`'s 1 and the fixed first-maximum tie-break
prefers the earlier-inserted pair. -/
theorem C1_theorem :
    (BPETokenizer.train ("ab ab ab cd".toList) 10).merges = [] ∧
    (BPETokenizer.train ("ab ab ab cd".toList) 11).merges.head? =
      some ("a".toList, "b".toList) := by
  refine ⟨by decide, by decide⟩

/-! ### Claim C3: the sampler never returns PAD or UNK -/

theorem generate_next_token_mem (m : TrigramLanguageModel) (context : Nat × Nat)
    (choice : Nat) (h : candidateSet m context ≠ []) :
    m.generate_next_token context choice ∈ candidateSet m context := by
  have hlen : 0 < (candidateSet m context).length := List.length_pos.mpr h
  have hidx : choice % (candidateSet m context).length < (candidateSet m context).length :=
    Nat.mod_lt _ hlen
  simp only [TrigramLanguageModel.generate_next_token, if_neg h]
  rw [List.getD_eq_getElem?_getD, List.getElem?_eq_getElem hidx]
  simpa using List.getElem_mem hidx

/-- C3: for every model state, context pair and random draw, the sampled id
is neither PAD (0) nor UNK (1); and when the candidate set left after
discarding PAD and UNK is empty, the end-of-sentence id 2 is returned. -/
theorem C3_theorem (m : TrigramLanguageModel) (context : Nat × Nat) (choice : Nat) :
    m.generate_next_token context choice ≠ pad_id ∧
    m.generate_next_token context choice ≠ unk_id ∧
    (candidateSet m context = [] → m.generate_next_token context choice = eos_id) := by
  by_cases h : candidateSet m context = []
  · refine ⟨?_, ?_, fun _ => ?_⟩ <;>
      simp [TrigramLanguageModel.generate_next_token, h, pad_id, unk_id, eos_id]
  · have hmem := generate_next_token_mem m context choice h
    rw [candidateSet] at hmem
    have h2 := List.mem_filter.mp hmem
    have h1 := List.mem_filter.mp h2.1
    refine ⟨?_, ?_, fun hc => absurd hc h⟩
    · simpa using h1.2
    · simpa using h2.2

/-- C3 witness: on the empty-table model every candidate list is empty and
the sampler returns the end-of-sentence id 2, which is neither PAD nor UNK. -/
theorem C3_witness :
    mZero.generate_next_token (0, 0) 0 = eos_id ∧
    mZero.generate_next_token (0, 0) 0 ≠ pad_id := by
  exact ⟨(C3_theorem mZero (0, 0) 0).2.2 (by decide), (C3_theorem mZero (0, 0) 0).1⟩

/-! ### Controller step lemmas (claims C5, C6, C8) -/

theorem genStepId_special_emit (T : BPETokenizer) (s : GenState) (i : Nat)
    (hi : i = eos_id ∨ i = eop_id) (hcs : s.consecutive_special + 1 < 3) :
    genStepId T s i =
      (⟨s.ctx ++ [i], s.generated_ids ++ [i], s.consecutive_special + 1⟩,
        [SSEEvent.token (specialGlyph i)], false) := by
  rcases hi with rfl | rfl <;>
    simp [genStepId, pad_id, unk_id, eos_id, eop_id, eot_id, Nat.not_le.mpr hcs]

theorem genStepId_special_stop (T : BPETokenizer) (s : GenState) (i : Nat)
    (hi : i = eos_id ∨ i = eop_id) (hcs : s.consecutive_special + 1 ≥ 3) :
    genStepId T s i =
      (⟨s.ctx ++ [i], s.generated_ids ++ [i], s.consecutive_special + 1⟩, [], true) := by
  rcases hi with rfl | rfl <;>
    simp [genStepId, pad_id, unk_id, eos_id, eop_id, eot_id, hcs]

theorem genStepId_events_token (T : BPETokenizer) (s : GenState) (i : Nat) :
    ∀ e ∈ (genStepId T s i).2.1, ∃ t, e = SSEEvent.token t := by
  intro e he
  rw [genStepId] at he
  by_cases h4 : i = eot_id
  · rw [if_pos h4] at he; exact absurd he (List.not_mem_nil e)
  rw [if_neg h4] at he
  by_cases h01 : i = pad_id ∨ i = unk_id
  · rw [if_pos h01] at he; exact absurd he (List.not_mem_nil e)
  rw [if_neg h01] at he
  by_cases h2 : i = eos_id
  · rw [if_pos h2] at he
    by_cases hc : s.consecutive_special + 1 ≥ 3
    · rw [if_pos hc] at he; exact absurd he (List.not_mem_nil e)
    · rw [if_neg hc] at he; exact ⟨_, List.mem_singleton.mp he⟩
  rw [if_neg h2] at he
  by_cases h3 : i = eop_id
  · rw [if_pos h3] at he
    by_cases hc : s.consecutive_special + 1 ≥ 3
    · rw [if_pos hc] at he; exact absurd he (List.not_mem_nil e)
    · rw [if_neg hc] at he; exact ⟨_, List.mem_singleton.mp he⟩
  rw [if_neg h3] at he
  by_cases hs : pyStrip (T.decode [i]) ≠ []
  · rw [if_pos hs] at he; exact ⟨_, List.mem_singleton.mp he⟩
  · rw [if_neg hs] at he; exact absurd he (List.not_mem_nil e)

theorem genLoop_no_error (T : BPETokenizer) (m : TrigramLanguageModel)
    (rs : List Nat) (s : GenState) (msg : Str) :
    SSEEvent.error msg ∉ genLoop T m rs s := by
  induction rs generalizing s with
  | nil => simp [genLoop]
  | cons r rest ih =>
    rw [genLoop]
    by_cases hstop : (genStep T m s r).2.2
    · rw [if_pos hstop]
      intro hmem
      rcases List.mem_append.mp hmem with h1 | h1
      · rcases genStepId_events_token T s _ _ h1 with ⟨t, ht⟩
        exact SSEEvent.noConfusion ht
      · simp at h1
    · rw [if_neg hstop]
      intro hmem
      rcases List.mem_append.mp hmem with h1 | h1
      · rcases genStepId_events_token T s _ _ h1 with ⟨t, ht⟩
        exact SSEEvent.noConfusion ht
      · exact ih _ h1

/-! ### Claim C8: the ModelNotLoaded error event -/

/-- C8: when the total unigram count is 0 a generation request produces
exactly the single terminal error event (and in particular no token
fragments); when it is positive, no error event ever appears in the stream.
The embedding is a total function, so no exception can abort the process. -/
theorem C8_theorem (T : BPETokenizer) (m : TrigramLanguageModel) (pre : Str)
    (max_length : Nat) (rand : Nat → Nat) :
    (m.total_unigrams = 0 →
      generate_tokens T m pre max_length rand = [SSEEvent.error modelNotLoadedMsg]) ∧
    (m.total_unigrams ≠ 0 → ∀ msg,
      SSEEvent.error msg ∉ generate_tokens T m pre max_length rand) := by
  constructor
  · intro h
    rw [generate_tokens, if_pos h]
  · intro h msg
    rw [generate_tokens, if_neg h]
    intro hmem
    rcases List.mem_cons.mp hmem with h1 | h1
    · exact SSEEvent.noConfusion h1
    · exact genLoop_no_error _ _ _ _ _ h1

/-- C8 witness: the zero-count model yields exactly the error event; the
loaded model `mEos` never yields an error event. -/
theorem C8_witness :
    generate_tokens tok0 mZero ("x".toList) 2 (fun _ => 0) =
      [SSEEvent.error modelNotLoadedMsg] ∧
    SSEEvent.error modelNotLoadedMsg ∉ generate_tokens tok0 mEos ("x".toList) 2 (fun _ => 0) := by
  exact ⟨(C8_theorem tok0 mZero ("x".toList) 2 (fun _ => 0)).1 (by decide),
    (C8_theorem tok0 mEos ("x".toList) 2 (fun _ => 0)).2 (by decide) modelNotLoadedMsg⟩

/-! ### Claim C6: PAD/UNK steps leave the controller state unchanged -/

/-- C6: a generation step whose sampled id is PAD (0) or UNK (1) leaves the
context window, the accumulated output ids and the emitted fragment stream
unchanged and does not stop the controller; and every non-stopping step of
the loop consumes exactly one entry of the per-step draw list, so the
discarded step still counts against the `max_length` budget. -/
theorem C6_theorem :
    (∀ (T : BPETokenizer) (s : GenState) (i : Nat), i = pad_id ∨ i = unk_id →
      genStepId T s i = (s, [], false)) ∧
    (∀ (T : BPETokenizer) (m : TrigramLanguageModel) (s : GenState) (r : Nat)
      (rest : List Nat), (genStep T m s r).2.2 = false →
      genLoop T m (r :: rest) s =
        (genStep T m s r).2.1 ++ genLoop T m rest (genStep T m s r).1) := by
  constructor
  · rintro T s i (rfl | rfl) <;> simp [genStepId, pad_id, unk_id, eot_id]
  · intro T m s r rest h
    rw [genLoop, if_neg (by simp [h])]

/-- C6 witness: the PAD step on a concrete state is a no-op, and a concrete
non-stopping step unfolds to one consumed draw. -/
theorem C6_witness :
    genStepId tok0 sInit 0 = (sInit, [], false) ∧
    genLoop tok0 mEos [0, 0] sInit =
      (genStep tok0 mEos sInit 0).2.1 ++ genLoop tok0 mEos [0] (genStep tok0 mEos sInit 0).1 := by
  exact ⟨C6_theorem.1 tok0 sInit 0 (Or.inl rfl),
    C6_theorem.2 tok0 mEos sInit 0 [0] (by decide)⟩

/-! ### Claim C5: three consecutive special ids stop the controller -/

/-- C5: from a state with the consecutive-special counter at 0, if three
consecutively sampled ids are all special (end-of-sentence or
end-of-paragraph), the controller emits the two corresponding glyph
fragments, stops on the third special id, and produces only the terminal
marker afterwards — regardless of how many steps of the `max_length` budget
remain; moreover the counter is reset to 0 by every ordinary
(non-special, non-discarded) token step. -/
theorem C5_theorem :
    (∀ (T : BPETokenizer) (m : TrigramLanguageModel) (s : GenState)
        (r1 r2 r3 : Nat) (rest : List Nat) (i1 i2 i3 : Nat),
      s.consecutive_special = 0 →
      m.generate_next_token (last2 s.ctx) r1 = i1 → i1 = eos_id ∨ i1 = eop_id →
      m.generate_next_token (last2 (s.ctx ++ [i1])) r2 = i2 → i2 = eos_id ∨ i2 = eop_id →
      m.generate_next_token (last2 (s.ctx ++ [i1] ++ [i2])) r3 = i3 →
      i3 = eos_id ∨ i3 = eop_id →
      genLoop T m (r1 :: r2 :: r3 :: rest) s =
        [SSEEvent.token (specialGlyph i1), SSEEvent.token (specialGlyph i2),
          SSEEvent.done]) ∧
    (∀ (T : BPETokenizer) (s : GenState) (i : Nat),
      i ≠ pad_id → i ≠ unk_id → i ≠ eos_id → i ≠ eop_id → i ≠ eot_id →
      (genStepId T s i).1.consecutive_special = 0) := by
  constructor
  · intro T m s r1 r2 r3 rest i1 i2 i3 hcs h1 hi1 h2 hi2 h3 hi3
    have step1 : genStep T m s r1 =
        (⟨s.ctx ++ [i1], s.generated_ids ++ [i1], s.consecutive_special + 1⟩,
          [SSEEvent.token (specialGlyph i1)], false) := by
      rw [genStep, h1]
      exact genStepId_special_emit T s i1 hi1 (by omega)
    rw [genLoop, step1]
    simp only [if_neg (by simp : ¬(false = true))]
    have step2 : genStep T m
        ⟨s.ctx ++ [i1], s.generated_ids ++ [i1], s.consecutive_special + 1⟩ r2 =
        (⟨s.ctx ++ [i1] ++ [i2], s.generated_ids ++ [i1] ++ [i2],
          s.consecutive_special + 2⟩, [SSEEvent.token (specialGlyph i2)], false) := by
      rw [genStep]
      simp only [h2]
      exact genStepId_special_emit T _ i2 hi2 (by simp; omega)
    rw [genLoop, step2]
    simp only [if_neg (by simp : ¬(false = true))]
    have step3 : genStep T m
        ⟨s.ctx ++ [i1] ++ [i2], s.generated_ids ++ [i1] ++ [i2],
          s.consecutive_special + 2⟩ r3 =
        (⟨s.ctx ++ [i1] ++ [i2] ++ [i3], s.generated_ids ++ [i1] ++ [i2] ++ [i3],
          s.consecutive_special + 3⟩, [], true) := by
      rw [genStep]
      simp only [h3]
      exact genStepId_special_stop T _ i3 hi3 (by simp)
    rw [genLoop, step3]
    simp
  · intro T s i h0 h1 h2 h3 h4
    simp only [pad_id, unk_id, eos_id, eop_id, eot_id] at h0 h1 h2 h3 h4
    simp [genStepId, pad_id, unk_id, eos_id, eop_id, eot_id, h0, h1, h2, h3, h4]

/-- C5 witness: with the model that always samples the end-of-sentence id,
a run of three steps emits two sentence-end glyphs and then only the
terminal marker, although a fourth budgeted step remained; and a concrete
ordinary step resets the counter from 3 to 0. -/
theorem C5_witness :
    genLoop tok0 mEos [0, 0, 0, 9] sInit =
      [SSEEvent.token (specialGlyph 2), SSEEvent.token (specialGlyph 2),
        SSEEvent.done] ∧
    (genStepId tok0 ⟨[2, 2], [], 3⟩ 7).1.consecutive_special = 0 := by
  refine ⟨C5_theorem.1 tok0 mEos sInit 0 0 0 [9] 2 2 2 rfl (by decide)
    (Or.inl rfl) (by decide) (Or.inl rfl) (by decide) (Or.inl rfl), ?_⟩
  exact C5_theorem.2 tok0 ⟨[2, 2], [], 3⟩ 7 (by decide) (by decide) (by decide)
    (by decide) (by decide)

/-! ### Claim C4: interpolated probability -/

theorem ratio_bounds (num den : Nat) (hle : num ≤ den) :
    0 ≤ (if den = 0 then (0 : ℚ) else (num : ℚ) / (den : ℚ)) ∧
      (if den = 0 then (0 : ℚ) else (num : ℚ) / (den : ℚ)) ≤ 1 := by
  by_cases h : den = 0
  · simp [h]
  · rw [if_neg h]
    have hpos : (0 : ℚ) < (den : ℚ) := by
      exact_mod_cast Nat.pos_of_ne_zero h
    exact ⟨div_nonneg (by positivity) (le_of_lt hpos),
      (div_le_one hpos).mpr (by exact_mod_cast hle)⟩

theorem p1_bounds (m : TrigramLanguageModel)
    (hu : m.total_unigrams = sumVals m.unigram_counts) (w : Nat) :
    0 ≤ m.p1 w ∧ m.p1 w ≤ 1 := by
  have h := ratio_bounds (lookupD m.unigram_counts w 0) m.total_unigrams
    (hu ▸ lookupD_le_sumVals m.unigram_counts w)
  simpa [TrigramLanguageModel.p1] using h

theorem p2_bounds (m : TrigramLanguageModel)
    (hb : ∀ x, lookupD m.total_bigrams x 0 = sumVals (lookupD m.bigram_counts x []))
    (w1 w2 : Nat) : 0 ≤ m.p2 w1 w2 ∧ m.p2 w1 w2 ≤ 1 := by
  have h := ratio_bounds (lookupD (lookupD m.bigram_counts w1 []) w2 0)
    (lookupD m.total_bigrams w1 0)
    ((hb w1) ▸ lookupD_le_sumVals (lookupD m.bigram_counts w1 []) w2)
  simpa [TrigramLanguageModel.p2] using h

theorem p3_bounds (m : TrigramLanguageModel)
    (ht : ∀ p, lookupD m.total_trigrams p 0 = sumVals (lookupD m.trigram_counts p []))
    (w1 w2 w3 : Nat) : 0 ≤ m.p3 w1 w2 w3 ∧ m.p3 w1 w2 w3 ≤ 1 := by
  have h := ratio_bounds (lookupD (lookupD m.trigram_counts (w1, w2) []) w3 0)
    (lookupD m.total_trigrams (w1, w2) 0)
    ((ht (w1, w2)) ▸ lookupD_le_sumVals (lookupD m.trigram_counts (w1, w2) []) w3)
  simpa [TrigramLanguageModel.p3] using h

/-- C4: with the interpolation weights fixed at their configured values
0.1 / 0.3 / 0.6 and with count tables whose totals equal the sums of their
child counts, the interpolated probability equals the spec's formula
λ1·P(w3) + λ2·P(w3|w2) + λ3·P(w3|w1,w2) (each conditional being count over
context total, or 0 on a zero total), the weights sum to 1, and the result
lies in [0, 1].  Floats are modelled as exact rationals. -/
theorem C4_theorem (m : TrigramLanguageModel) (w1 w2 w3 : Nat)
    (hl1 : m.lambda1 = 1/10) (hl2 : m.lambda2 = 3/10) (hl3 : m.lambda3 = 6/10)
    (hu : m.total_unigrams = sumVals m.unigram_counts)
    (hb : ∀ x, lookupD m.total_bigrams x 0 = sumVals (lookupD m.bigram_counts x []))
    (ht : ∀ p, lookupD m.total_trigrams p 0 = sumVals (lookupD m.trigram_counts p [])) :
    m.get_interpolated_prob w1 w2 w3 = spec_probability m w1 w2 w3 ∧
    m.lambda1 + m.lambda2 + m.lambda3 = 1 ∧
    0 ≤ m.get_interpolated_prob w1 w2 w3 ∧
    m.get_interpolated_prob w1 w2 w3 ≤ 1 := by
  have h1 := p1_bounds m hu w3
  have h2 := p2_bounds m hb w2 w3
  have h3 := p3_bounds m ht w1 w2 w3
  refine ⟨rfl, by rw [hl1, hl2, hl3]; norm_num, ?_, ?_⟩ <;>
    rw [TrigramLanguageModel.get_interpolated_prob, hl1, hl2, hl3] <;>
    nlinarith [h1.1, h1.2, h2.1, h2.2, h3.1, h3.2]

/-- C4 witness: a concrete consistent model (one observed id) has weights
summing to 1 and interpolated probabilities within [0, 1]. -/
theorem C4_witness :
    mEos.lambda1 + mEos.lambda2 + mEos.lambda3 = 1 ∧
    0 ≤ mEos.get_interpolated_prob 0 0 2 ∧
    mEos.get_interpolated_prob 0 0 2 ≤ 1 ∧
    mEos.get_interpolated_prob 0 0 2 = spec_probability mEos 0 0 2 := by
  have h := C4_theorem mEos 0 0 2 rfl rfl rfl (by decide)
    (fun x => by simp [lookupD, alookup, mEos, sumVals])
    (fun p => by simp [lookupD, alookup, mEos, sumVals])
  exact ⟨h.2.1, h.2.2.1, h.2.2.2, h.1⟩

/-! ### Claim C7: vocabulary size bound and fixed special ids -/

theorem assignTokens_length (V : Nat) (toks : List Str) :
    ∀ (vocab : List (Str × Nat)) (next_id slots : Nat),
      vocab.length + slots ≤ V → (assignTokens V toks vocab next_id slots).length ≤ V := by
  induction toks with
  | nil => intro vocab next_id slots h; rw [assignTokens]; omega
  | cons tok rest ih =>
    intro vocab next_id slots h
    rw [assignTokens]
    by_cases hadd : alookup vocab tok = none ∧ slots > 0
    · rw [if_pos hadd]
      have hlen : (vocab ++ [(tok, next_id)]).length = vocab.length + 1 := by
        simp
      by_cases hbr : (vocab ++ [(tok, next_id)]).length ≥ V
      · rw [if_pos hbr]; omega
      · rw [if_neg hbr]
        exact ih _ _ _ (by omega)
    · rw [if_neg hadd]
      by_cases hbr : vocab.length ≥ V
      · rw [if_pos hbr]; omega
      · rw [if_neg hbr]
        exact ih _ _ _ (by omega)

theorem assignTokens_decomp (V : Nat) (toks : List Str) :
    ∀ (vocab : List (Str × Nat)) (next_id slots : Nat), 5 ≤ next_id →
      ∃ rest, assignTokens V toks vocab next_id slots = vocab ++ rest ∧
        ∀ e ∈ rest, 5 ≤ e.2 := by
  induction toks with
  | nil =>
    intro vocab next_id slots _
    exact ⟨[], by simp [assignTokens]⟩
  | cons tok rest ih =>
    intro vocab next_id slots hnext
    rw [assignTokens]
    by_cases hadd : alookup vocab tok = none ∧ slots > 0
    · rw [if_pos hadd]
      by_cases hbr : (vocab ++ [(tok, next_id)]).length ≥ V
      · rw [if_pos hbr]
        exact ⟨[(tok, next_id)], rfl, by simpa using hnext⟩
      · rw [if_neg hbr]
        rcases ih (vocab ++ [(tok, next_id)]) (next_id + 1) (slots - 1) (by omega)
          with ⟨r, hr, hv⟩
        refine ⟨(tok, next_id) :: r, by simpa using hr, ?_⟩
        intro e he
        rcases List.mem_cons.mp he with rfl | he2
        · exact hnext
        · exact hv e he2
    · rw [if_neg hadd]
      by_cases hbr : vocab.length ≥ V
      · rw [if_pos hbr]
        exact ⟨[], by simp⟩
      · rw [if_neg hbr]
        exact ih vocab next_id slots hnext

theorem idLookup_specials_append (rest : List (Str × Nat))
    (hrest : ∀ e ∈ rest, 5 ≤ e.2) (i : Nat) (hi : i < 5) :
    idLookup (specialTokens ++ rest) i = idLookup specialTokens i := by
  rw [idLookup, idLookup, List.reverse_append, List.find?_append]
  have hnone : List.find? (fun e => e.2 == i) rest.reverse = none := by
    rw [List.find?_eq_none]
    intro e he
    have h5 := hrest e (List.mem_reverse.mp he)
    simp only [beq_iff_eq]
    omega
  rw [hnone, Option.none_or]

/-- C7 counterexample: with target vocabulary size `V = 3`, training on the
corpus "ab" produces a vocabulary with 5 entries (the specials are always
installed), exceeding `V` — so the claim's bound fails for `V < 5`. -/
theorem C7_counterexample :
    (BPETokenizer.train ("ab".toList) 3).vocab.length = 5 ∧
    ¬ ((BPETokenizer.train ("ab".toList) 3).vocab.length ≤ 3) := by
  refine ⟨by decide, by decide⟩

/-- C7 amended: for every training corpus and every target size `V ≥ 5`, the
trained vocabulary has at most `V` entries, and the five special tokens keep
their fixed ids in both directions: token-to-id and id-to-token
(PAD=0, UNK=1, end-of-sentence=2, end-of-paragraph=3, end-of-text=4).
For `V < 5` the specials are still installed and the size bound fails. -/
theorem C7_theorem (corpus : Str) (V : Nat) (hV : 5 ≤ V) :
    (BPETokenizer.train corpus V).vocab.length ≤ V ∧
    alookup (BPETokenizer.train corpus V).vocab ("<PAD>".toList) = some 0 ∧
    alookup (BPETokenizer.train corpus V).vocab ("<UNK>".toList) = some 1 ∧
    alookup (BPETokenizer.train corpus V).vocab [EOS_CHAR] = some 2 ∧
    alookup (BPETokenizer.train corpus V).vocab [EOP_CHAR] = some 3 ∧
    alookup (BPETokenizer.train corpus V).vocab [EOT_CHAR] = some 4 ∧
    idLookup (BPETokenizer.train corpus V).vocab 0 = some ("<PAD>".toList) ∧
    idLookup (BPETokenizer.train corpus V).vocab 1 = some ("<UNK>".toList) ∧
    idLookup (BPETokenizer.train corpus V).vocab 2 = some [EOS_CHAR] ∧
    idLookup (BPETokenizer.train corpus V).vocab 3 = some [EOP_CHAR] ∧
    idLookup (BPETokenizer.train corpus V).vocab 4 = some [EOT_CHAR] := by
  have hvocab : (BPETokenizer.train corpus V).vocab =
      assignTokens V (trainTokenOrder (trainMergePhase corpus V).1) specialTokens
        specialTokens.length (V - specialTokens.length) := rfl
  rcases assignTokens_decomp V (trainTokenOrder (trainMergePhase corpus V).1)
    specialTokens specialTokens.length (V - specialTokens.length) (by decide)
    with ⟨rest, hr, hv⟩
  have hlen : (BPETokenizer.train corpus V).vocab.length ≤ V := by
    rw [hvocab]
    exact assignTokens_length V _ specialTokens specialTokens.length
      (V - specialTokens.length) (by simp [specialTokens]; omega)
  have hdec : (BPETokenizer.train corpus V).vocab = specialTokens ++ rest :=
    hvocab.trans hr
  refine ⟨hlen, ?_, ?_, ?_, ?_, ?_, ?_, ?_, ?_, ?_, ?_⟩ <;>
    rw [hdec]
  · exact alookup_append_some rest (by decide)
  · exact alookup_append_some rest (by decide)
  · exact alookup_append_some rest (by decide)
  · exact alookup_append_some rest (by decide)
  · exact alookup_append_some rest (by decide)
  · rw [idLookup_specials_append rest hv 0 (by decide)]; decide
  · rw [idLookup_specials_append rest hv 1 (by decide)]; decide
  · rw [idLookup_specials_append rest hv 2 (by decide)]; decide
  · rw [idLookup_specials_append rest hv 3 (by decide)]; decide
  · rw [idLookup_specials_append rest hv 4 (by decide)]; decide

/-- C7 witness: the bound and the special-token mapping on a concrete
trained tokenizer. -/
theorem C7_witness :
    (BPETokenizer.train ("ab".toList) 10).vocab.length ≤ 10 ∧
    idLookup (BPETokenizer.train ("ab".toList) 10).vocab 0 = some ("<PAD>".toList) := by
  have h := C7_theorem ("ab".toList) 10 (by decide)
  exact ⟨h.1, h.2.2.2.2.2.2.1⟩

/-! ### Claim C9: encode only emits known ids -/

theorem foldl_append_eq_flatten {γ δ : Type} (f : γ → List δ) (ws : List γ) :
    ∀ acc : List δ, ws.foldl (fun ids w => ids ++ f w) acc = acc ++ (ws.map f).flatten := by
  induction ws with
  | nil => intro acc; simp
  | cons w rest ih => intro acc; simp [ih, List.append_assoc]

theorem encode_eq_flatten (T : BPETokenizer) (text : Str) :
    T.encode text = ((pySplit (separateSpecials text)).map (encodeUnit T)).flatten := by
  rw [BPETokenizer.encode, foldl_append_eq_flatten]
  simp

theorem encodeUnit_mem (T : BPETokenizer) (w0 : Str) (i : Nat)
    (h : i ∈ encodeUnit T w0) :
    i ∈ specialTokens.map (fun e => e.2) ∨ i ∈ T.vocab.map (fun e => e.2) := by
  rw [encodeUnit] at h
  rcases hsp : alookup specialTokens ((alookup legacyAliases w0).getD w0) with _ | j
  · rw [hsp] at h
    simp only [List.mem_map] at h
    rcases h with ⟨tok, _, htok⟩
    rcases hv : alookup T.vocab tok with _ | v
    · rw [hv] at htok
      left
      rw [← htok]
      decide
    · rw [hv] at htok
      right
      rw [← htok]
      exact alookup_mem_values hv
  · rw [hsp] at h
    simp only [List.mem_singleton] at h
    subst h
    exact Or.inl (alookup_mem_values hsp)

/-- C9: every id produced by `encode` on a trained tokenizer is a value of
the special-token table or of the vocabulary mapping (UNK standing in for
unknown symbols), and every such id has an inverse-vocabulary entry — so on
encode output, `decode`'s absent-id (empty-string) recovery branch is never
taken. -/
theorem C9_theorem (corpus : Str) (V : Nat) (text : Str) (i : Nat)
    (h : i ∈ (BPETokenizer.train corpus V).encode text) :
    (i ∈ specialTokens.map (fun e => e.2) ∨
      i ∈ (BPETokenizer.train corpus V).vocab.map (fun e => e.2)) ∧
    (idLookup (BPETokenizer.train corpus V).vocab i).isSome := by
  rw [encode_eq_flatten] at h
  rcases List.mem_flatten.mp h with ⟨ids, hids, hi⟩
  rcases List.mem_map.mp hids with ⟨w0, _, rfl⟩
  have hcase := encodeUnit_mem _ w0 i hi
  rcases assignTokens_decomp V (trainTokenOrder (trainMergePhase corpus V).1)
    specialTokens specialTokens.length (V - specialTokens.length) (by decide)
    with ⟨rest, hr, _⟩
  have hdec : (BPETokenizer.train corpus V).vocab = specialTokens ++ rest := hr
  have hvval : i ∈ (BPETokenizer.train corpus V).vocab.map (fun e => e.2) := by
    rcases hcase with hsp | hvv
    · rw [hdec, List.map_append]
      exact List.mem_append_left _ hsp
    · exact hvv
  exact ⟨Or.inr hvval, find?_isSome_of_value_mem hvval⟩

/-- C9 witness: on a concrete trained tokenizer and input, the produced id
is a vocabulary value and decodes to a present token. -/
theorem C9_witness :
    (5 ∈ specialTokens.map (fun e => e.2) ∨
      5 ∈ (BPETokenizer.train ("ab".toList) 10).vocab.map (fun e => e.2)) ∧
    (idLookup (BPETokenizer.train ("ab".toList) 10).vocab 5).isSome := by
  exact C9_theorem ("ab".toList) 10 ("ab".toList) 5 (by decide)

/-! ### String lemmas about `pyReplace` and `pySplit` (claims C2, C10) -/

theorem pyReplaceGo_fuel (pat repl : Str) :
    ∀ (f1 : Nat) (s : Str) (f2 : Nat), s.length ≤ f1 → s.length ≤ f2 →
      pyReplaceGo pat repl f1 s = pyReplaceGo pat repl f2 s := by
  intro f1
  induction f1 with
  | zero =>
    intro s f2 h1 _
    have hs : s = [] := List.eq_nil_of_length_eq_zero (Nat.le_zero.mp h1)
    subst hs
    cases f2 <;> rfl
  | succ f ih =>
    intro s f2 h1 h2
    cases s with
    | nil => cases f2 <;> rfl
    | cons c cs =>
      cases f2 with
      | zero => simp at h2
      | succ f2' =>
        simp only [pyReplaceGo]
        by_cases hb : pat ≠ [] ∧ pat.isPrefixOf (c :: cs)
        · rw [if_pos hb, if_pos hb]
          have hp : 0 < pat.length := List.length_pos.mpr hb.1
          simp only [List.length_cons] at h1 h2
          have hl1 : ((c :: cs).drop pat.length).length ≤ f := by
            simp only [List.length_drop, List.length_cons]
            omega
          have hl2 : ((c :: cs).drop pat.length).length ≤ f2' := by
            simp only [List.length_drop, List.length_cons]
            omega
          rw [ih _ _ hl1 hl2]
        · rw [if_neg hb, if_neg hb]
          simp only [List.length_cons] at h1 h2
          rw [ih _ _ (by omega) (by omega : cs.length ≤ f2')]

theorem pyReplace_nil (pat repl : Str) : pyReplace pat repl [] = [] := rfl

theorem pyReplace_cons (pat repl : Str) (c : Char) (cs : Str) :
    pyReplace pat repl (c :: cs) =
      if pat ≠ [] ∧ pat.isPrefixOf (c :: cs) then
        repl ++ pyReplace pat repl ((c :: cs).drop pat.length)
      else c :: pyReplace pat repl cs := by
  rw [pyReplace]
  simp only [List.length_cons, pyReplaceGo]
  by_cases hb : pat ≠ [] ∧ pat.isPrefixOf (c :: cs)
  · rw [if_pos hb, if_pos hb, pyReplace]
    congr 1
    apply pyReplaceGo_fuel
    · have hp : 0 < pat.length := List.length_pos.mpr hb.1
      simp only [List.length_drop, List.length_cons]
      omega
    · exact le_rfl
  · rw [if_neg hb, if_neg hb, pyReplace]

theorem filter_pyReplaceGo (P : Char → Bool) (pat repl : Str)
    (h : pat.filter P = repl.filter P) :
    ∀ (fuel : Nat) (s : Str), (pyReplaceGo pat repl fuel s).filter P = s.filter P := by
  intro fuel
  induction fuel with
  | zero => intro s; cases s <;> rfl
  | succ f ih =>
    intro s
    cases s with
    | nil => rfl
    | cons c cs =>
      simp only [pyReplaceGo]
      by_cases hb : pat ≠ [] ∧ pat.isPrefixOf (c :: cs)
      · rw [if_pos hb]
        rcases List.isPrefixOf_iff_prefix.mp hb.2 with ⟨t, ht⟩
        have hdrop : (c :: cs).drop pat.length = t := by
          rw [← ht, List.drop_left]
        rw [List.filter_append, ih, hdrop, ← h, ← List.filter_append, ht]
      · rw [if_neg hb]
        simp only [List.filter_cons]
        rw [ih]

theorem filter_pyReplace (P : Char → Bool) (pat repl s : Str)
    (h : pat.filter P = repl.filter P) :
    (pyReplace pat repl s).filter P = s.filter P :=
  filter_pyReplaceGo P pat repl h s.length s

theorem pyReplaceGo_no_head (p : Char) (pr repl : Str) :
    ∀ (fuel : Nat) (s : Str), p ∉ s → pyReplaceGo (p :: pr) repl fuel s = s := by
  intro fuel
  induction fuel with
  | zero => intro s _; cases s <;> rfl
  | succ f ih =>
    intro s hp
    cases s with
    | nil => rfl
    | cons c cs =>
      simp only [pyReplaceGo]
      have hnpre : ¬ (p :: pr).isPrefixOf (c :: cs) = true := by
        intro hpre
        have hpc := (List.cons_prefix_cons.mp (List.isPrefixOf_iff_prefix.mp hpre)).1
        exact hp (hpc ▸ List.mem_cons_self c cs)
      rw [if_neg (fun hab => hnpre hab.2)]
      rw [ih cs (fun hm => hp (List.mem_cons_of_mem c hm))]

theorem pyReplace_no_occur (pat repl s : Str) (p : Char) (hhd : pat.head? = some p)
    (hp : p ∉ s) : pyReplace pat repl s = s := by
  cases pat with
  | nil => simp at hhd
  | cons q pr =>
    have hq : q = p := by simpa using hhd
    subst hq
    exact pyReplaceGo_no_head q pr repl s.length s hp

theorem pyReplace_append_self (p : Char) (pr repl : Str) :
    ∀ (w : Str), p ∉ w → pyReplace (p :: pr) repl (w ++ (p :: pr)) = w ++ repl := by
  intro w
  induction w with
  | nil =>
    intro _
    rw [List.nil_append, pyReplace_cons]
    rw [if_pos ⟨List.cons_ne_nil p pr,
      List.isPrefixOf_iff_prefix.mpr (List.prefix_refl _)⟩]
    rw [List.drop_length, pyReplace_nil]
    simp
  | cons c w' ih =>
    intro hp
    have hcp : p ≠ c := fun h => hp (h ▸ List.mem_cons_self c w')
    have hpw : p ∉ w' := fun hm => hp (List.mem_cons_of_mem c hm)
    rw [List.cons_append, pyReplace_cons]
    have hnpre : ¬ (p :: pr).isPrefixOf (c :: (w' ++ (p :: pr))) = true := by
      intro hpre
      exact hcp (List.cons_prefix_cons.mp (List.isPrefixOf_iff_prefix.mp hpre)).1
    rw [if_neg (fun hab => hnpre hab.2)]
    rw [ih hpw]
    simp

theorem pySplitAux_flatten : ∀ (s acc : Str),
    (pySplitAux s acc).flatten = acc.reverse ++ s.filter (fun c => !isWS c) := by
  intro s
  induction s with
  | nil =>
    intro acc
    by_cases h : acc = []
    · subst h; simp [pySplitAux]
    · rw [pySplitAux, if_neg h]; simp
  | cons c cs ih =>
    intro acc
    rw [pySplitAux]
    by_cases hws : isWS c
    · rw [if_pos hws]
      by_cases h : acc = []
      · rw [if_pos h]
        subst h
        rw [ih]
        simp [List.filter_cons, hws]
      · rw [if_neg h]
        rw [List.flatten_cons, ih]
        simp [List.filter_cons, hws]
    · rw [if_neg hws]
      rw [ih]
      simp [List.filter_cons, hws]

theorem pySplit_flatten (s : Str) :
    (pySplit s).flatten = s.filter (fun c => !isWS c) := by
  rw [pySplit, pySplitAux_flatten]
  rfl

theorem pySplitAux_noWS : ∀ (s acc : Str), (∀ c ∈ s, isWS c = false) →
    (acc = [] → s ≠ []) → pySplitAux s acc = [acc.reverse ++ s] := by
  intro s
  induction s with
  | nil =>
    intro acc _ hne
    have hacc : ¬ acc = [] := fun ha => hne ha rfl
    rw [pySplitAux, if_neg hacc]
    simp
  | cons c cs ih =>
    intro acc h _
    rw [pySplitAux]
    have hc : isWS c = false := h c (List.mem_cons_self c cs)
    rw [if_neg (by simp [hc])]
    rw [ih (c :: acc) (fun d hd => h d (List.mem_cons_of_mem c hd)) (by simp)]
    simp

theorem pySplit_single (w : Str) (hne : w ≠ []) (h : ∀ c ∈ w, isWS c = false) :
    pySplit w = [w] := by
  rw [pySplit, pySplitAux_noWS w [] h (fun _ => hne)]
  rfl

theorem pySplitAux_word_space : ∀ (w acc : Str), (∀ c ∈ w, isWS c = false) →
    (acc = [] → w ≠ []) → pySplitAux (w ++ [' ']) acc = [acc.reverse ++ w] := by
  intro w
  induction w with
  | nil =>
    intro acc _ hne
    have hacc : ¬ acc = [] := fun ha => hne ha rfl
    show pySplitAux (' ' :: []) acc = _
    rw [pySplitAux, if_pos (by decide : isWS ' ' = true), if_neg hacc]
    simp [pySplitAux]
  | cons c cs ih =>
    intro acc h _
    have hc : isWS c = false := h c (List.mem_cons_self c cs)
    show pySplitAux (c :: (cs ++ [' '])) acc = _
    rw [pySplitAux, if_neg (by simp [hc])]
    rw [ih (c :: acc) (fun d hd => h d (List.mem_cons_of_mem c hd)) (by simp)]
    simp

theorem pySplit_word_space (w : Str) (hne : w ≠ [])
    (h : ∀ c ∈ w, isWS c = false) : pySplit (w ++ [' ']) = [w] := by
  rw [pySplit, pySplitAux_word_space w [] h (fun _ => hne)]
  rfl

/-! ### Claim C2: single-word round trip -/

theorem filter_join_singletons : ∀ (w : Str), (∀ c ∈ w, isWS c = false) →
    (pyJoin [' '] (w.map (fun c => [c]))).filter (fun c => !isWS c) = w := by
  intro w
  induction w with
  | nil => intro _; rfl
  | cons c cs ih =>
    intro h
    have hc : isWS c = false := h c (List.mem_cons_self c cs)
    cases cs with
    | nil => simp [pyJoin, List.filter, hc]
    | cons d ds =>
      have hrest := ih (fun e he => h e (List.mem_cons_of_mem c he))
      show (([c] ++ [' '] ++ pyJoin [' '] ((d :: ds).map (fun c => [c]))).filter
        (fun c => !isWS c)) = c :: d :: ds
      rw [List.filter_append, List.filter_append, hrest]
      simp [List.filter, hc]
      decide

theorem filter_toVocabWord (w : Str) (h : ∀ c ∈ w, isWS c = false) :
    (toVocabWord w).filter (fun c => !isWS c) = w ++ eowMarker := by
  rw [toVocabWord, List.filter_append, filter_join_singletons w h]
  congr 1

theorem encode_word_flatten (T : BPETokenizer) (w : Str)
    (h : ∀ c ∈ w, isWS c = false) :
    (T.encode_word w).flatten = w ++ eowMarker := by
  rw [BPETokenizer.encode_word, pySplit_flatten]
  have hfold : ∀ (ms : List (Str × Str)) (s : Str),
      (ms.foldl (fun w p => pyReplace (p.1 ++ [' '] ++ p.2) (p.1 ++ p.2) w) s).filter
        (fun c => !isWS c) = s.filter (fun c => !isWS c) := by
    intro ms
    induction ms with
    | nil => intro s; rfl
    | cons m rest ih =>
      intro s
      rw [List.foldl_cons, ih]
      apply filter_pyReplace
      have hsp : ([' '] : Str).filter (fun c => !isWS c) = [] := rfl
      simp only [List.filter_append, hsp, List.append_nil]
  rw [hfold, filter_toVocabWord w h]

theorem alookup_eq_none {α β : Type} [DecidableEq α] (l : List (α × β)) (k : α)
    (h : ∀ e ∈ l, e.1 ≠ k) : alookup l k = none := by
  induction l with
  | nil => rfl
  | cons e es ih =>
    rw [alookup, if_neg (h e (List.mem_cons_self e es))]
    exact ih (fun e' he' => h e' (List.mem_cons_of_mem e he'))

theorem separateSpecials_id (w : Str) (hlt : '<' ∉ w)
    (h0 : EOS_CHAR ∉ w) (h1 : EOP_CHAR ∉ w) (h2 : EOT_CHAR ∉ w) :
    separateSpecials w = w := by
  show [EOS_CHAR, EOP_CHAR, EOT_CHAR].foldl (fun t ch => pyReplace [ch] [' ', ch, ' '] t)
    (legacyAliases.foldl (fun t e => pyReplace e.1 e.2 t) w) = w
  simp only [legacyAliases, List.foldl_cons, List.foldl_nil]
  rw [pyReplace_no_occur ("<EOS>".toList) [EOS_CHAR] w '<' rfl hlt]
  rw [pyReplace_no_occur ("<EOP>".toList) [EOP_CHAR] w '<' rfl hlt]
  rw [pyReplace_no_occur ("<EOT>".toList) [EOT_CHAR] w '<' rfl hlt]
  rw [pyReplace_no_occur [EOS_CHAR] [' ', EOS_CHAR, ' '] w EOS_CHAR rfl h0]
  rw [pyReplace_no_occur [EOP_CHAR] [' ', EOP_CHAR, ' '] w EOP_CHAR rfl h1]
  exact pyReplace_no_occur [EOT_CHAR] [' ', EOT_CHAR, ' '] w EOT_CHAR rfl h2

theorem encode_single (T : BPETokenizer) (w : Str) (hne : w ≠ [])
    (hws : ∀ c ∈ w, isWS c = false) (hlt : '<' ∉ w)
    (h0 : EOS_CHAR ∉ w) (h1 : EOP_CHAR ∉ w) (h2 : EOT_CHAR ∉ w) :
    T.encode w = (T.encode_word w).map (fun tok => (alookup T.vocab tok).getD 1) := by
  rw [BPETokenizer.encode, separateSpecials_id w hlt h0 h1 h2, pySplit_single w hne hws]
  rw [List.foldl_cons, List.foldl_nil, List.nil_append]
  rw [encodeUnit]
  have hmem : ∀ (u : Str), '<' ∈ u → u ≠ w := by
    intro u hu he
    exact hlt (he ▸ hu)
  have halias : alookup legacyAliases w = none := by
    apply alookup_eq_none
    intro e he
    fin_cases he <;> exact hmem _ (by decide)
  rw [halias, Option.getD_none]
  have hspec : alookup specialTokens w = none := by
    apply alookup_eq_none
    intro e he
    fin_cases he
    · exact hmem _ (by decide)
    · exact hmem _ (by decide)
    · intro heq; exact h0 (heq ▸ List.mem_cons_self EOS_CHAR [])
    · intro heq; exact h1 (heq ▸ List.mem_cons_self EOP_CHAR [])
    · intro heq; exact h2 (heq ▸ List.mem_cons_self EOT_CHAR [])
  rw [hspec]

/-- C2 counterexample: on the tokenizer trained from `corpusC2` with
`V = 13`, the characters x, a and b are all covered by the vocabulary
(each is a vocabulary key), yet `decode(encode("xab"))` is "<UNK>" — the
merges (x,a) then (a,b) produce the token "xab" via Python's plain string
replace, and "xab" is not in the vocabulary, so the word does not round-trip
(neither to "xab" nor to "xab "). -/
theorem C2_counterexample :
    (alookup (BPETokenizer.train corpusC2 13).vocab ['x']).isSome ∧
    (alookup (BPETokenizer.train corpusC2 13).vocab ['a']).isSome ∧
    (alookup (BPETokenizer.train corpusC2 13).vocab ['b']).isSome ∧
    (BPETokenizer.train corpusC2 13).decode
      ((BPETokenizer.train corpusC2 13).encode ("xab".toList)) = "<UNK>".toList ∧
    "<UNK>".toList ≠ ("xab".toList : Str) ∧
    "<UNK>".toList ≠ ("xab ".toList : Str) := by
  refine ⟨by decide, by decide, by decide, by decide, by decide, by decide⟩

/-- C2 amended: for every single word `w` (nonempty, whitespace-free, free
of private-use special characters and of the character '<') all of whose
`encode_word` tokens are covered by the vocabulary (present as keys, with
the inverse mapping recovering them), `decode(encode(w))` reconstructs `w`
plus a trailing space up to the final whitespace collapse: the decode text
before the collapse is `w ++ " "`, and the collapse then removes the
trailing space, so the final result is exactly `w`. -/
theorem C2_theorem (T : BPETokenizer) (w : Str) (hne : w ≠ [])
    (hws : ∀ c ∈ w, isWS c = false) (hlt : '<' ∉ w)
    (h0 : EOS_CHAR ∉ w) (h1 : EOP_CHAR ∉ w) (h2 : EOT_CHAR ∉ w)
    (hcov : ∀ tok ∈ T.encode_word w, ∃ i, alookup T.vocab tok = some i ∧
      idLookup T.vocab i = some tok) :
    decodeText T (T.encode w) = w ++ [' '] ∧
    T.decode (T.encode w) = w := by
  have henc := encode_single T w hne hws hlt h0 h1 h2
  have htoks : (T.encode w).map (fun i => (idLookup T.vocab i).getD []) =
      T.encode_word w := by
    rw [henc, List.map_map]
    have hpt : ∀ tok ∈ T.encode_word w,
        ((fun i => (idLookup T.vocab i).getD []) ∘
          (fun tok => (alookup T.vocab tok).getD 1)) tok = id tok := by
      intro tok htok
      rcases hcov tok htok with ⟨i, hai, hinv⟩
      simp [hai, hinv]
    rw [List.map_congr_left hpt, List.map_id]
  have hsp : (' ' : Char) ≠ EOS_CHAR ∧ (' ' : Char) ≠ EOP_CHAR ∧
      (' ' : Char) ≠ EOT_CHAR := by decide
  have hd : decodeText T (T.encode w) = w ++ [' '] := by
    rw [decodeText, htoks, encode_word_flatten T w hws]
    have heow : pyReplace eowMarker [' '] (w ++ eowMarker) = w ++ [' '] := by
      show pyReplace ('<' :: "/w>".toList) [' '] (w ++ ('<' :: "/w>".toList)) = w ++ [' ']
      exact pyReplace_append_self '<' ("/w>".toList) [' '] w hlt
    rw [heow]
    rw [pyReplace_no_occur [EOS_CHAR] [urduStop, ' '] (w ++ [' ']) EOS_CHAR rfl
      (by intro hm; rcases List.mem_append.mp hm with hm | hm
          · exact h0 hm
          · simp at hm; exact hsp.1 hm.symm)]
    rw [pyReplace_no_occur [EOP_CHAR] ['\n', '\n'] (w ++ [' ']) EOP_CHAR rfl
      (by intro hm; rcases List.mem_append.mp hm with hm | hm
          · exact h1 hm
          · simp at hm; exact hsp.2.1 hm.symm)]
    rw [pyReplace_no_occur [EOT_CHAR] [] (w ++ [' ']) EOT_CHAR rfl
      (by intro hm; rcases List.mem_append.mp hm with hm | hm
          · exact h2 hm
          · simp at hm; exact hsp.2.2 hm.symm)]
  refine ⟨hd, ?_⟩
  rw [BPETokenizer.decode, hd, pySplit_word_space w hne hws]
  rfl

/-- C2 witness: for the fully covered word "ab" on `tokC2w`
(one merge (a,b), vocabulary containing "ab" and the end-of-word marker),
the pre-collapse decode text is "ab " and the round trip returns "ab". -/
theorem C2_witness :
    decodeText tokC2w (tokC2w.encode ("ab".toList)) = "ab ".toList ∧
    tokC2w.decode (tokC2w.encode ("ab".toList)) = "ab".toList := by
  have hew : tokC2w.encode_word ("ab".toList) = ["ab".toList, eowMarker] := by decide
  have h := C2_theorem tokC2w ("ab".toList) (by decide) (by decide) (by decide)
    (by decide) (by decide) (by decide) ?_
  · exact h
  · intro tok htok
    rw [hew] at htok
    simp only [List.mem_cons, List.not_mem_nil, or_false] at htok
    rcases htok with rfl | rfl
    · exact ⟨5, by decide, by decide⟩
    · exact ⟨6, by decide, by decide⟩

/-! ### Infix machinery for claim C10 -/

theorem infix_append_left {l t : Str} (s : Str) (h : l <:+: t) : l <:+: s ++ t := by
  rcases h with ⟨u, v, huv⟩
  exact ⟨s ++ u, v, by rw [← huv]; simp⟩

theorem suffix_cons_of_suffix {x a' : Str} (c : Char) (h : x <:+ a') : x <:+ c :: a' := by
  rcases h with ⟨t, ht⟩
  exact ⟨c :: t, by rw [← ht]; rfl⟩

theorem prefix_append_split {l u v : Str} (h : l <+: u ++ v) :
    l <+: u ∨ ∃ y, l = u ++ y ∧ y <+: v := by
  rcases h with ⟨t, ht⟩
  rcases List.append_eq_append_iff.mp ht with ⟨a', ha1, _⟩ | ⟨c', hc1, hc2⟩
  · exact Or.inl ⟨a', ha1.symm⟩
  · exact Or.inr ⟨c', hc1, ⟨t, hc2.symm⟩⟩

theorem infix_append_split {l a b : Str} (h : l <:+: a ++ b) :
    l <:+: a ∨ l <:+: b ∨
      ∃ x y, l = x ++ y ∧ x ≠ [] ∧ y ≠ [] ∧ x <:+ a ∧ y <+: b := by
  induction a with
  | nil => exact Or.inr (Or.inl (by simpa using h))
  | cons c a' ih =>
    rw [List.cons_append] at h
    rcases List.infix_cons_iff.mp h with hpre | hinf
    · rw [← List.cons_append] at hpre
      rcases prefix_append_split hpre with h1 | ⟨y, hy, hyv⟩
      · exact Or.inl h1.isInfix
      · by_cases hyn : y = []
        · subst hyn
          rw [List.append_nil] at hy
          exact Or.inl (hy ▸ List.infix_refl _)
        · exact Or.inr (Or.inr ⟨c :: a', y, hy, List.cons_ne_nil c a', hyn,
            List.suffix_refl _, hyv⟩)
    · rcases ih hinf with h1 | h1 | ⟨x, y, hxy, hx, hy, hxa, hyb⟩
      · exact Or.inl (List.infix_cons h1)
      · exact Or.inr (Or.inl h1)
      · exact Or.inr (Or.inr ⟨x, y, hxy, hx, hy, suffix_cons_of_suffix c hxa, hyb⟩)

theorem mem_pyReplaceGo {pat repl : Str} {c : Char} :
    ∀ (fuel : Nat) (s : Str), c ∈ pyReplaceGo pat repl fuel s → c ∈ s ∨ c ∈ repl := by
  intro fuel
  induction fuel with
  | zero => intro s h; cases s <;> simp_all [pyReplaceGo]
  | succ f ih =>
    intro s h
    cases s with
    | nil => simp [pyReplaceGo] at h
    | cons d cs =>
      simp only [pyReplaceGo] at h
      by_cases hb : pat ≠ [] ∧ pat.isPrefixOf (d :: cs)
      · rw [if_pos hb] at h
        rcases List.mem_append.mp h with h1 | h1
        · exact Or.inr h1
        · rcases ih _ h1 with h2 | h2
          · exact Or.inl (List.drop_subset _ _ h2)
          · exact Or.inr h2
      · rw [if_neg hb] at h
        rcases List.mem_cons.mp h with rfl | h1
        · exact Or.inl (List.mem_cons_self c cs)
        · rcases ih _ h1 with h2 | h2
          · exact Or.inl (List.mem_cons_of_mem d h2)
          · exact Or.inr h2

theorem not_mem_pyReplace {pat repl s : Str} {c : Char}
    (hs : c ∉ s) (hr : c ∉ repl) : c ∉ pyReplace pat repl s := by
  intro h
  rcases mem_pyReplaceGo s.length s h with h1 | h1
  · exact hs h1
  · exact hr h1

theorem not_mem_pyReplace_single (p : Char) (repl : Str) (hr : p ∉ repl) :
    ∀ (fuel : Nat) (s : Str), s.length ≤ fuel → p ∉ pyReplaceGo [p] repl fuel s := by
  intro fuel
  induction fuel with
  | zero =>
    intro s hlen h
    have : s = [] := List.eq_nil_of_length_eq_zero (Nat.le_zero.mp hlen)
    subst this
    simp [pyReplaceGo] at h
  | succ f ih =>
    intro s hlen h
    cases s with
    | nil => simp [pyReplaceGo] at h
    | cons d cs =>
      simp only [List.length_cons] at hlen
      simp only [pyReplaceGo] at h
      by_cases hb : ([p] : Str) ≠ [] ∧ ([p] : Str).isPrefixOf (d :: cs)
      · rw [if_pos hb] at h
        rcases List.mem_append.mp h with h1 | h1
        · exact hr h1
        · exact ih _ (by simp; omega) h1
      · rw [if_neg hb] at h
        rcases List.mem_cons.mp h with rfl | h1
        · exact hb ⟨List.cons_ne_nil p [],
            List.isPrefixOf_iff_prefix.mpr ⟨cs, rfl⟩⟩
        · exact ih _ (by omega) h1

theorem chunk_prefix_transfer {repl2 y : Str} (pat2 : Str) (hrepl : repl2 ≠ [])
    (hy : ∀ c ∈ y, c ∉ repl2) :
    ∀ (fuel : Nat) (s : Str), y <+: pyReplaceGo pat2 repl2 fuel s → y <+: s := by
  intro fuel
  induction fuel generalizing y with
  | zero =>
    intro s h
    cases s with
    | nil => simpa [pyReplaceGo] using h
    | cons d cs => simpa [pyReplaceGo] using h
  | succ f ih =>
    intro s h
    cases s with
    | nil => simpa [pyReplaceGo] using h
    | cons d cs =>
      simp only [pyReplaceGo] at h
      by_cases hb : pat2 ≠ [] ∧ pat2.isPrefixOf (d :: cs)
      · rw [if_pos hb] at h
        cases y with
        | nil => exact List.nil_prefix
        | cons e y' =>
          exfalso
          cases repl2 with
          | nil => exact hrepl rfl
          | cons r0 repl' =>
            have he := (List.cons_prefix_cons.mp (by simpa using h)).1
            exact hy e (List.mem_cons_self e y') (he ▸ List.mem_cons_self r0 repl')
      · rw [if_neg hb] at h
        cases y with
        | nil => exact List.nil_prefix
        | cons e y' =>
          rcases List.cons_prefix_cons.mp h with ⟨rfl, hy'⟩
          have := ih (fun c hc => hy c (List.mem_cons_of_mem e hc)) cs hy'
          exact List.cons_prefix_cons.mpr ⟨rfl, this⟩

theorem pyReplace_self_not_infix {pat repl : Str} (hpat : pat ≠ [])
    (hrepl : repl ≠ []) (hd : ∀ c ∈ repl, c ∉ pat) :
    ∀ (fuel : Nat) (s : Str), s.length ≤ fuel → ¬ pat <:+: pyReplaceGo pat repl fuel s := by
  intro fuel
  induction fuel with
  | zero =>
    intro s hlen h
    have : s = [] := List.eq_nil_of_length_eq_zero (Nat.le_zero.mp hlen)
    subst this
    exact hpat (List.eq_nil_of_infix_nil (by simpa [pyReplaceGo] using h))
  | succ f ih =>
    intro s hlen h
    cases s with
    | nil => exact hpat (List.eq_nil_of_infix_nil (by simpa [pyReplaceGo] using h))
    | cons c cs =>
      simp only [List.length_cons] at hlen
      simp only [pyReplaceGo] at h
      by_cases hb : pat ≠ [] ∧ pat.isPrefixOf (c :: cs)
      · rw [if_pos hb] at h
        have hp1 : 0 < pat.length := List.length_pos.mpr hb.1
        rcases infix_append_split h with h1 | h1 | ⟨x, y, hxy, hx, _, hxr, _⟩
        · rcases List.exists_mem_of_ne_nil pat hpat with ⟨p, hp⟩
          exact hd p (h1.subset hp) hp
        · exact ih _ (by simp only [List.length_drop, List.length_cons]; omega) h1
        · rcases List.exists_mem_of_ne_nil x hx with ⟨p, hp⟩
          exact hd p (hxr.subset hp) (hxy ▸ List.mem_append_left y hp)
      · rw [if_neg hb] at h
        have hnp : ¬ pat.isPrefixOf (c :: cs) = true := fun hpre => hb ⟨hpat, hpre⟩
        rcases List.infix_cons_iff.mp h with hpre | hinf
        · cases pat with
          | nil => exact hpat rfl
          | cons p pat' =>
            rcases List.cons_prefix_cons.mp hpre with ⟨rfl, hp'⟩
            cases pat' with
            | nil =>
              exact hnp (List.isPrefixOf_iff_prefix.mpr ⟨cs, rfl⟩)
            | cons p1 pr =>
              have hy : ∀ d ∈ (p1 :: pr : Str), d ∉ repl := by
                intro d hdm hdr
                exact hd d hdr (List.mem_cons_of_mem p hdm)
              have := chunk_prefix_transfer (p :: p1 :: pr) hrepl hy f cs hp'
              exact hnp (List.isPrefixOf_iff_prefix.mpr
                (List.cons_prefix_cons.mpr ⟨rfl, this⟩))
        · exact ih _ (by omega) hinf

theorem pyReplace_preserves_not_infix {pat pat2 repl2 : Str} (hpat : pat ≠ [])
    (hrepl : repl2 ≠ []) (hd : ∀ c ∈ repl2, c ∉ pat) :
    ∀ (fuel : Nat) (s : Str), s.length ≤ fuel → ¬ pat <:+: s →
      ¬ pat <:+: pyReplaceGo pat2 repl2 fuel s := by
  intro fuel
  induction fuel with
  | zero =>
    intro s hlen _ h
    have : s = [] := List.eq_nil_of_length_eq_zero (Nat.le_zero.mp hlen)
    subst this
    exact hpat (List.eq_nil_of_infix_nil (by simpa [pyReplaceGo] using h))
  | succ f ih =>
    intro s hlen hs h
    cases s with
    | nil => exact hpat (List.eq_nil_of_infix_nil (by simpa [pyReplaceGo] using h))
    | cons c cs =>
      simp only [List.length_cons] at hlen
      simp only [pyReplaceGo] at h
      by_cases hb : pat2 ≠ [] ∧ pat2.isPrefixOf (c :: cs)
      · rw [if_pos hb] at h
        rcases infix_append_split h with h1 | h1 | ⟨x, y, hxy, hx, _, hxr, _⟩
        · rcases List.exists_mem_of_ne_nil pat hpat with ⟨p, hp⟩
          exact hd p (h1.subset hp) hp
        · have hp1 : 0 < pat2.length := List.length_pos.mpr hb.1
          have hdropinf : ¬ pat <:+: (c :: cs).drop pat2.length := fun hcontra =>
            hs (hcontra.trans (List.drop_suffix pat2.length (c :: cs)).isInfix)
          exact ih _ (by simp only [List.length_drop, List.length_cons]; omega) hdropinf h1
        · rcases List.exists_mem_of_ne_nil x hx with ⟨p, hp⟩
          exact hd p (hxr.subset hp) (hxy ▸ List.mem_append_left y hp)
      · rw [if_neg hb] at h
        rcases List.infix_cons_iff.mp h with hpre | hinf
        · cases pat with
          | nil => exact hpat rfl
          | cons p pat' =>
            rcases List.cons_prefix_cons.mp hpre with ⟨rfl, hp'⟩
            cases pat' with
            | nil => exact hs (List.IsPrefix.isInfix ⟨cs, rfl⟩)
            | cons p1 pr =>
              have hy : ∀ d ∈ (p1 :: pr : Str), d ∉ repl2 := by
                intro d hdm hdr
                exact hd d hdr (List.mem_cons_of_mem p hdm)
              have hcs := chunk_prefix_transfer pat2 hrepl hy f cs hp'
              exact hs (List.IsPrefix.isInfix
                (List.cons_prefix_cons.mpr ⟨rfl, hcs⟩))
        · have : ¬ pat <:+: cs := fun hcontra => hs (List.infix_cons hcontra)
          exact ih _ (by omega) this hinf

/-! ### Piece lemmas for the final whitespace collapse (claim C10) -/

theorem mem_pySplitAux_infix : ∀ (s acc p : Str),
    p ∈ pySplitAux s acc → p <:+: acc.reverse ++ s := by
  intro s
  induction s with
  | nil =>
    intro acc p hp
    by_cases h : acc = []
    · subst h; simp [pySplitAux] at hp
    · rw [pySplitAux, if_neg h] at hp
      simp only [List.mem_singleton] at hp
      subst hp
      simp
  | cons c cs ih =>
    intro acc p hp
    rw [pySplitAux] at hp
    by_cases hws : isWS c
    · rw [if_pos hws] at hp
      by_cases h : acc = []
      · rw [if_pos h] at hp
        subst h
        have := ih [] p hp
        simp only [List.reverse_nil, List.nil_append] at this
        exact infix_append_left _ (List.infix_cons this)
      · rw [if_neg h] at hp
        rcases List.mem_cons.mp hp with rfl | hp2
        · exact List.IsPrefix.isInfix ⟨c :: cs, rfl⟩
        · have := ih [] p hp2
          simp only [List.reverse_nil, List.nil_append] at this
          exact infix_append_left _ (List.infix_cons this)
    · rw [if_neg hws] at hp
      have := ih (c :: acc) p hp
      simpa using this

theorem pySplit_piece_infix (s p : Str) (hp : p ∈ pySplit s) : p <:+: s := by
  have := mem_pySplitAux_infix s [] p hp
  simpa using this

theorem pySplitAux_pieces_clean : ∀ (s acc : Str),
    (∀ c ∈ acc, isWS c = false) →
    ∀ p ∈ pySplitAux s acc, p ≠ [] ∧ ∀ c ∈ p, isWS c = false := by
  intro s
  induction s with
  | nil =>
    intro acc hacc p hp
    by_cases h : acc = []
    · subst h; simp [pySplitAux] at hp
    · rw [pySplitAux, if_neg h] at hp
      simp only [List.mem_singleton] at hp
      subst hp
      exact ⟨by simpa using h, fun c hc => hacc c (List.mem_reverse.mp hc)⟩
  | cons c cs ih =>
    intro acc hacc p hp
    rw [pySplitAux] at hp
    by_cases hws : isWS c
    · rw [if_pos hws] at hp
      by_cases h : acc = []
      · rw [if_pos h] at hp
        exact ih [] (by simp) p hp
      · rw [if_neg h] at hp
        rcases List.mem_cons.mp hp with rfl | hp2
        · exact ⟨by simpa using h, fun d hd => hacc d (List.mem_reverse.mp hd)⟩
        · exact ih [] (by simp) p hp2
    · rw [if_neg hws] at hp
      refine ih (c :: acc) ?_ p hp
      intro d hd
      rcases List.mem_cons.mp hd with rfl | hd2
      · simpa using hws
      · exact hacc d hd2

theorem pySplit_pieces_clean (s : Str) :
    ∀ p ∈ pySplit s, p ≠ [] ∧ ∀ c ∈ p, isWS c = false :=
  pySplitAux_pieces_clean s [] (by simp)

theorem mem_pyJoin {sep : Str} {c : Char} :
    ∀ (pieces : List Str), c ∈ pyJoin sep pieces → c ∈ sep ∨ ∃ p ∈ pieces, c ∈ p := by
  intro pieces
  induction pieces with
  | nil => intro h; simp [pyJoin] at h
  | cons p ps ih =>
    intro h
    cases ps with
    | nil =>
      exact Or.inr ⟨p, List.mem_cons_self p [], by simpa [pyJoin] using h⟩
    | cons q qs =>
      rw [pyJoin] at h
      rcases List.mem_append.mp h with h1 | h1
      · rcases List.mem_append.mp h1 with h2 | h2
        · exact Or.inr ⟨p, List.mem_cons_self p _, h2⟩
        · exact Or.inl h2
      · rcases ih h1 with h2 | ⟨r, hr, hcr⟩
        · exact Or.inl h2
        · exact Or.inr ⟨r, List.mem_cons_of_mem p hr, hcr⟩

theorem pyJoin_head (sep p : Str) (ps : List Str) (hp : p ≠ []) :
    (pyJoin sep (p :: ps)).head? = p.head? := by
  cases ps with
  | nil => rfl
  | cons q qs =>
    rw [pyJoin]
    cases p with
    | nil => exact absurd rfl hp
    | cons c cs => rfl

theorem pyJoin_ne_nil (sep p : Str) (ps : List Str) (hp : p ≠ []) :
    pyJoin sep (p :: ps) ≠ [] := by
  intro h
  have := pyJoin_head sep p ps hp
  rw [h] at this
  cases p with
  | nil => exact hp rfl
  | cons c cs => simp at this

theorem mem_of_getLast? {l : Str} {a : Char} (h : l.getLast? = some a) : a ∈ l := by
  induction l with
  | nil => simp at h
  | cons c cs ih =>
    rw [List.getLast?_cons] at h
    cases hcs : cs.getLast? with
    | none =>
      rw [hcs] at h
      simp only [Option.getD_none] at h
      cases cs with
      | nil => simp at h; simp [h]
      | cons d ds => simp [List.getLast?_cons] at hcs
    | some b =>
      rw [hcs] at h
      simp only [Option.getD_some] at h
      injection h with hba
      subst hba
      exact List.mem_cons_of_mem c (ih hcs)

theorem pyJoin_getLast (sep : Str) :
    ∀ (pieces : List Str), pieces ≠ [] → (∀ p ∈ pieces, p ≠ []) →
      ∃ q ∈ pieces, (pyJoin sep pieces).getLast? = q.getLast? := by
  intro pieces
  induction pieces with
  | nil => intro h _; exact absurd rfl h
  | cons p ps ih =>
    intro _ hne
    cases ps with
    | nil => exact ⟨p, List.mem_cons_self p [], rfl⟩
    | cons q qs =>
      rcases ih (List.cons_ne_nil q qs) (fun r hr => hne r (List.mem_cons_of_mem p hr))
        with ⟨r, hr, hlast⟩
      refine ⟨r, List.mem_cons_of_mem p hr, ?_⟩
      rw [pyJoin, List.getLast?_append, List.getLast?_append]
      have hqn : pyJoin sep (q :: qs) ≠ [] :=
        pyJoin_ne_nil sep q qs (hne q (List.mem_cons_of_mem p (List.mem_cons_self q qs)))
      have : (pyJoin sep (q :: qs)).getLast?.isSome := by
        cases hj : (pyJoin sep (q :: qs)) with
        | nil => exact absurd hj hqn
        | cons x xs => simp [List.getLast?_cons]
      rw [Option.or_of_isSome this, hlast]

theorem pyJoin_not_infix {l t : Str} (hl : l ≠ []) (hsp : ' ' ∉ l)
    (ht : ¬ l <:+: t) :
    ∀ (pieces : List Str), (∀ p ∈ pieces, p <:+: t) →
      ¬ l <:+: pyJoin [' '] pieces := by
  intro pieces
  induction pieces with
  | nil =>
    intro _ h
    exact hl (List.eq_nil_of_infix_nil (by simpa [pyJoin] using h))
  | cons p ps ih =>
    intro hpieces h
    cases ps with
    | nil =>
      exact ht ((by simpa [pyJoin] using h : l <:+: p).trans
        (hpieces p (List.mem_cons_self p [])))
    | cons q qs =>
      rw [pyJoin, List.append_assoc] at h
      rcases infix_append_split h with h1 | h1 | ⟨x, y, hxy, hx, hy, hxr, hyb⟩
      · exact ht (h1.trans (hpieces p (List.mem_cons_self p _)))
      · rw [List.singleton_append] at h1
        rcases List.infix_cons_iff.mp h1 with hpre | hinf
        · cases l with
          | nil => exact hl rfl
          | cons d l' =>
            have := (List.cons_prefix_cons.mp hpre).1
            exact hsp (this ▸ List.mem_cons_self d l')
        · exact ih (fun r hr => hpieces r (List.mem_cons_of_mem p hr)) hinf
      · cases y with
        | nil => exact hy rfl
        | cons e y' =>
          have he : e = ' ' := (List.cons_prefix_cons.mp (by simpa using hyb)).1
          exact hsp (hxy ▸ List.mem_append_right x
            (he ▸ List.mem_cons_self e y'))

theorem pyJoin_no_double_space :
    ∀ (pieces : List Str), (∀ p ∈ pieces, p ≠ [] ∧ ∀ c ∈ p, isWS c = false) →
      ¬ ([' ', ' '] : Str) <:+: pyJoin [' '] pieces := by
  intro pieces
  induction pieces with
  | nil =>
    intro _ h
    simpa [pyJoin] using List.eq_nil_of_infix_nil h
  | cons p ps ih =>
    intro hclean h
    cases ps with
    | nil =>
      have hsp : ' ' ∈ p := (by simpa [pyJoin] using h :
        ([' ', ' '] : Str) <:+: p).subset (List.mem_cons_self ' ' [' '])
      have := (hclean p (List.mem_cons_self p [])).2 ' ' hsp
      simp [isWS] at this
    | cons q qs =>
      rw [pyJoin, List.append_assoc] at h
      have hqclean := hclean q (List.mem_cons_of_mem p (List.mem_cons_self q qs))
      rcases infix_append_split h with h1 | h1 | ⟨x, y, hxy, hx, hy, hxr, hyb⟩
      · have hsp : ' ' ∈ p := h1.subset (List.mem_cons_self ' ' [' '])
        have := (hclean p (List.mem_cons_self p _)).2 ' ' hsp
        simp [isWS] at this
      · rw [List.singleton_append] at h1
        rcases List.infix_cons_iff.mp h1 with hpre | hinf
        · have hrest : ([' '] : Str) <+: pyJoin [' '] (q :: qs) :=
            (List.cons_prefix_cons.mp hpre).2
          cases hj : pyJoin [' '] (q :: qs) with
          | nil =>
            rw [hj] at hrest
            simpa using hrest
          | cons r0 rest' =>
            have hr0 : r0 = ' ' := by
              rw [hj] at hrest
              exact ((List.cons_prefix_cons.mp hrest).1).symm
            have hhead := pyJoin_head [' '] q qs hqclean.1
            rw [hj] at hhead
            cases q with
            | nil => exact hqclean.1 rfl
            | cons c q' =>
              have hc : c = r0 := by simpa using hhead.symm
              have := hqclean.2 c (List.mem_cons_self c q')
              rw [hc, hr0] at this
              simp [isWS] at this
        · exact ih (fun r hr => hclean r (List.mem_cons_of_mem p hr)) hinf
      · rcases List.exists_mem_of_ne_nil x hx with ⟨d, hdm⟩
        have hd' : d = ' ' := by
          have : d ∈ ([' ', ' '] : Str) := hxy ▸ List.mem_append_left y hdm
          simpa using this
        have hsp : ' ' ∈ p := hxr.subset (hd' ▸ hdm)
        have := (hclean p (List.mem_cons_self p _)).2 ' ' hsp
        simp [isWS] at this

theorem idLookup_token_mem {vocab : List (Str × Nat)} {i : Nat} {t : Str}
    (h : idLookup vocab i = some t) : ∃ e ∈ vocab, e.1 = t := by
  rw [idLookup] at h
  cases hf : vocab.reverse.find? (fun e => e.2 == i) with
  | none => rw [hf] at h; simp at h
  | some e =>
    rw [hf] at h
    simp only [Option.map_some'] at h
    injection h with h
    exact ⟨e, List.mem_reverse.mp (List.mem_of_find?_eq_some hf), h⟩

/-! ### Claim C10: shape of decode output -/

/-- C10 counterexample: for a vocabulary whose token embeds the private-use
end-of-text character inside the letters of the end-of-word marker, the
deletion of that character during `decode` manufactures the very marker
"</w>" in the output, so the claim fails for arbitrary vocabularies. -/
theorem C10_counterexample :
    BPETokenizer.decode tokC10 [5] = "</w>".toList ∧
    ("</w>".toList : Str) <:+: BPETokenizer.decode tokC10 [5] := by
  refine ⟨by decide, by decide⟩

/-- C10 amended: for every id list and every vocabulary whose tokens do not
contain the end-of-text character U+E002, the decoded string contains no
end-of-word marker "</w>", none of the three private-use special
characters, only ordinary spaces as whitespace (in particular no newline
survives), and no leading, trailing, or consecutive whitespace.  (The
private-use-character and whitespace-shape conjuncts hold for arbitrary
vocabularies; only the marker-freedom needs the hypothesis, as the
counterexample shows.) -/
theorem C10_theorem (T : BPETokenizer) (ids : List Nat)
    (hT : ∀ e ∈ T.vocab, EOT_CHAR ∉ e.1) :
    ¬ (("</w>".toList : Str) <:+: T.decode ids) ∧
    EOS_CHAR ∉ T.decode ids ∧
    EOP_CHAR ∉ T.decode ids ∧
    EOT_CHAR ∉ T.decode ids ∧
    (∀ c ∈ T.decode ids, isWS c = true → c = ' ') ∧
    (T.decode ids).head? ≠ some ' ' ∧
    (T.decode ids).getLast? ≠ some ' ' ∧
    ¬ (([' ', ' '] : Str) <:+: T.decode ids) := by
  set t0 : Str := (ids.map (fun i => (idLookup T.vocab i).getD [])).flatten with ht0
  set t1 : Str := pyReplace eowMarker [' '] t0 with ht1
  set t2 : Str := pyReplace [EOS_CHAR] [urduStop, ' '] t1 with ht2
  set t3 : Str := pyReplace [EOP_CHAR] ['\n', '\n'] t2 with ht3
  have hEOT0 : EOT_CHAR ∉ t0 := by
    intro hmem
    rcases List.mem_flatten.mp hmem with ⟨tok, htokm, hc⟩
    rcases List.mem_map.mp htokm with ⟨i, _, rfl⟩
    cases hl : idLookup T.vocab i with
    | none => rw [hl] at hc; simp at hc
    | some t =>
      rw [hl] at hc
      simp only [Option.getD_some] at hc
      rcases idLookup_token_mem hl with ⟨e, hev, het⟩
      exact hT e hev (het ▸ hc)
  have hm1 : ¬ eowMarker <:+: t1 :=
    pyReplace_self_not_infix (by decide) (by decide)
      (by intro c hc; simp at hc; subst hc; decide) t0.length t0 le_rfl
  have hEOT1 : EOT_CHAR ∉ t1 := not_mem_pyReplace hEOT0 (by decide)
  have hm2 : ¬ eowMarker <:+: t2 :=
    pyReplace_preserves_not_infix (by decide) (by decide)
      (by intro c hc; simp at hc; rcases hc with rfl | rfl <;> decide)
      t1.length t1 le_rfl hm1
  have hE0_2 : EOS_CHAR ∉ t2 :=
    not_mem_pyReplace_single EOS_CHAR [urduStop, ' '] (by decide) t1.length t1 le_rfl
  have hEOT2 : EOT_CHAR ∉ t2 := not_mem_pyReplace hEOT1 (by decide)
  have hm3 : ¬ eowMarker <:+: t3 :=
    pyReplace_preserves_not_infix (by decide) (by decide)
      (by intro c hc; simp at hc; rcases hc with rfl | rfl <;> decide)
      t2.length t2 le_rfl hm2
  have hE0_3 : EOS_CHAR ∉ t3 := not_mem_pyReplace hE0_2 (by decide)
  have hE1_3 : EOP_CHAR ∉ t3 :=
    not_mem_pyReplace_single EOP_CHAR ['\n', '\n'] (by decide) t2.length t2 le_rfl
  have hEOT3 : EOT_CHAR ∉ t3 := not_mem_pyReplace hEOT2 (by decide)
  have heq4 : decodeText T ids = t3 := by
    rw [decodeText, ← ht0, ← ht1, ← ht2, ← ht3]
    exact pyReplace_no_occur [EOT_CHAR] [] t3 EOT_CHAR rfl hEOT3
  have hdec : T.decode ids = pyJoin [' '] (pySplit t3) := by
    rw [BPETokenizer.decode, heq4]
  have hclean := pySplit_pieces_clean t3
  have hpinf : ∀ p ∈ pySplit t3, p <:+: t3 := fun p hp => pySplit_piece_infix t3 p hp
  have hmarker : eowMarker = "</w>".toList := rfl
  refine ⟨?_, ?_, ?_, ?_, ?_, ?_, ?_, ?_⟩
  · rw [hdec, ← hmarker]
    exact pyJoin_not_infix (by decide) (by decide) hm3 (pySplit t3) hpinf
  · rw [hdec]
    intro hmem
    rcases mem_pyJoin (pySplit t3) hmem with hc | ⟨p, hp, hcp⟩
    · simp at hc
      exact absurd hc (by decide)
    · exact hE0_3 ((hpinf p hp).subset hcp)
  · rw [hdec]
    intro hmem
    rcases mem_pyJoin (pySplit t3) hmem with hc | ⟨p, hp, hcp⟩
    · simp at hc
      exact absurd hc (by decide)
    · exact hE1_3 ((hpinf p hp).subset hcp)
  · rw [hdec]
    intro hmem
    rcases mem_pyJoin (pySplit t3) hmem with hc | ⟨p, hp, hcp⟩
    · simp at hc
      exact absurd hc (by decide)
    · exact hEOT3 ((hpinf p hp).subset hcp)
  · rw [hdec]
    intro c hmem hws
    rcases mem_pyJoin (pySplit t3) hmem with hc | ⟨p, hp, hcp⟩
    · simpa using hc
    · rw [(hclean p hp).2 c hcp] at hws
      exact absurd hws (by simp)
  · rw [hdec]
    cases hps : pySplit t3 with
    | nil => simp [pyJoin]
    | cons p ps =>
      have hpc := hclean p (hps ▸ List.mem_cons_self p ps)
      rw [pyJoin_head [' '] p ps hpc.1]
      cases p with
      | nil => exact absurd rfl hpc.1
      | cons c p' =>
        simp only [List.head?_cons, ne_eq, Option.some.injEq]
        intro hceq
        have := hpc.2 c (List.mem_cons_self c p')
        rw [hceq] at this
        simp [isWS] at this
  · rw [hdec]
    cases hps : pySplit t3 with
    | nil => simp [pyJoin]
    | cons p ps =>
      rcases pyJoin_getLast [' '] (p :: ps) (List.cons_ne_nil p ps)
        (fun r hr => (hclean r (hps ▸ hr)).1) with ⟨q, hq, hlast⟩
      rw [hlast]
      intro hsome
      have hmemq : ' ' ∈ q := mem_of_getLast? hsome
      have := (hclean q (hps ▸ hq)).2 ' ' hmemq
      simp [isWS] at this
  · rw [hdec]
    exact pyJoin_no_double_space (pySplit t3) hclean

/-- C10 witness: a concrete vocabulary free of the end-of-text character
decodes to a marker-free, normalised string. -/
theorem C10_witness :
    ¬ (("</w>".toList : Str) <:+:
        BPETokenizer.decode tokC10w [5, 6]) ∧
    (BPETokenizer.decode tokC10w [5, 6]).head? ≠ some ' ' := by
  have h := C10_theorem tokC10w [5, 6] ?_
  · exact ⟨h.1, h.2.2.2.2.2.1⟩
  · intro e he
    fin_cases he <;> decide
